import Mathlib

/-!
Verification of the NeuroLearn LLM-output sanitization and recovery pipeline
(`src/modules/quiz_generator.py` and `src/modules/simplify_text.py`).

The Python code is shallowly embedded: strings become `List Char` / `String`,
Python exceptions become an explicit `PyErr` error type threaded through
`Except`, and the single outbound network call of each pipeline is abstracted
as an oracle parameter (a function from the cleaned prompt text and the API
key to the extracted raw reply).  The Python standard-library pieces the code
relies on (`str` methods, `re` substitution for the concrete patterns used,
`json.loads`) are modelled faithfully for the character ranges the pipeline
manipulates (ASCII plus printable non-ASCII); the models are noted at each
definition.
-/

/-- Model of Python's `str.isspace` / `\s` for the ASCII range
(space, tab, newline, carriage return, vertical tab, form feed).
Non-ASCII whitespace is not modelled. -/
def pyIsSpaceB (c : Char) : Bool :=
  c = ' ' || c = '\t' || c = '\n' || c = '\r' || c = '\x0b' || c = '\x0c'

/-- Model of Python's `str.isprintable`: false exactly on the C0 controls,
DEL and the C1 controls; every other character is treated as printable
(an approximation: exotic non-ASCII separator/format characters are treated
as printable, which the pipeline never distinguishes). -/
def pyIsPrintableB (c : Char) : Bool :=
  32 ≤ c.toNat && c.toNat ≠ 127 && ¬(128 ≤ c.toNat && c.toNat ≤ 159)

/-- Left strip: drop leading Python-whitespace characters. -/
def stripL (l : List Char) : List Char := l.dropWhile pyIsSpaceB

/-- Right strip: drop trailing Python-whitespace characters. -/
def stripR (l : List Char) : List Char := (l.reverse.dropWhile pyIsSpaceB).reverse

/-- Model of Python's `str.strip()` on character lists. -/
def pyStripL (l : List Char) : List Char := stripR (stripL l)

/-- Model of Python's `str.strip()` on strings. -/
def pyStripS (s : String) : String := (pyStripL s.toList).asString

/-- Split a character list at every separator selected by `p`, keeping empty
chunks — the semantics of Python's `str.split(sep)` for a one-character
separator (with `p := (· = sep)`). -/
def splitPred (p : Char → Bool) : List Char → List (List Char)
  | [] => [[]]
  | c :: rest =>
    if p c then [] :: splitPred p rest
    else
      match splitPred p rest with
      | [] => [[c]]
      | line :: ls => (c :: line) :: ls

/-- Join chunks with a newline between them — Python's `'\n'.join`. -/
def joinNL : List (List Char) → List Char
  | [] => []
  | [l] => l
  | l :: ls => l ++ '\n' :: joinNL ls

/-- Model of Python's `str.split()` (split on whitespace runs, dropping
empty pieces). -/
def pySplitWs (l : List Char) : List (List Char) :=
  (splitPred pyIsSpaceB l).filter (· ≠ [])

/-- Join word chunks with single spaces — Python's `' '.join`. -/
def joinSP : List (List Char) → List Char
  | [] => []
  | [w] => w
  | w :: ws => w ++ ' ' :: joinSP ws

/-- `re.sub(r'\r\n|\r', '\n', text)`: canonicalize line endings
(a leftmost match consumes `\r\n` when present, else the lone `\r`). -/
def normNewlines : List Char → List Char
  | [] => []
  | c :: rest =>
    if c = '\r' then
      match rest with
      | d :: t => if d = '\n' then '\n' :: normNewlines t else '\n' :: normNewlines (d :: t)
      | [] => ['\n']
    else c :: normNewlines rest

/-- Worker for `re.sub(r'\n{3,}', '\n\n', text)`: `seen` counts the
newlines already emitted in the current run (capped at 2). -/
def collapseNLAux (seen : Nat) : List Char → List Char
  | [] => []
  | c :: rest =>
    if c = '\n' then
      if 2 ≤ seen then collapseNLAux seen rest
      else '\n' :: collapseNLAux (seen + 1) rest
    else c :: collapseNLAux 0 rest

/-- `re.sub(r'\n{3,}', '\n\n', text)`: collapse runs of 3+ newlines to 2. -/
def collapseNL (l : List Char) : List Char := collapseNLAux 0 l

/-- Worker for `re.sub(r' +', ' ', text)`: `prev` records whether the
previous emitted character was a space. -/
def collapseSPAux (prev : Bool) : List Char → List Char
  | [] => []
  | c :: rest =>
    if c = ' ' then
      if prev then collapseSPAux true rest
      else ' ' :: collapseSPAux true rest
    else c :: collapseSPAux false rest

/-- `re.sub(r' +', ' ', text)`: collapse runs of spaces to one space. -/
def collapseSP (l : List Char) : List Char := collapseSPAux false l

/-- `text.replace('\t', ' ')`. -/
def tabToSpace (c : Char) : Char := if c = '\t' then ' ' else c

/-- The newline test used when splitting into lines. -/
def isNL (c : Char) : Bool := c = '\n'

/-- Whitespace other than newline (what a stripped line must not start or
end with). -/
def nspB (c : Char) : Bool := pyIsSpaceB c && !(c = '\n')

/-- Does the list contain two adjacent characters satisfying `p` then `q`? -/
def hasPair (p q : Char → Bool) : List Char → Bool
  | [] => false
  | [_] => false
  | a :: b :: rest => (p a && q b) || hasPair p q (b :: rest)

/-- Does the list contain three adjacent newline characters? -/
def hasTripleNL : List Char → Bool
  | a :: b :: c :: rest => (a = '\n' && b = '\n' && c = '\n') || hasTripleNL (b :: c :: rest)
  | _ => false

/-- Character kept by step 1 of `clean_input_text`
(`char.isprintable() or char.isspace()`). -/
def keepInputChar (c : Char) : Bool := pyIsPrintableB c || pyIsSpaceB c

/-- The shared input normalizer `clean_input_text` of both modules
(`quiz_generator.py` lines 55–95, `simplify_text.py` lines 47–88), on
character lists, with the length cap as a parameter (10000 for quiz
generation, 8000 for simplification).  The steps are, in source order:
drop non-printable non-whitespace characters; canonicalize line endings;
collapse 3+ newlines; collapse space runs; strip each line; replace tabs
with spaces; strip the whole text; truncate over-long text and append
`"..."`.  (The source's initial `if not text: return ""` guard is absorbed:
every step maps the empty list to the empty list.) -/
def cleanCore (maxLen : Nat) (l : List Char) : List Char :=
  let t1 := l.filter keepInputChar
  let t2 := normNewlines t1
  let t3 := collapseNL t2
  let t4 := collapseSP t3
  let t5 := joinNL ((splitPred isNL t4).map pyStripL)
  let t6 := t5.map tabToSpace
  let t7 := pyStripL t6
  if maxLen < t7.length then t7.take maxLen ++ ['.', '.', '.'] else t7

/-- `clean_input_text` of `quiz_generator.py` (length cap 10000). -/
def clean_input_text_quiz (s : String) : String := (cleanCore 10000 s.toList).asString

/-- `clean_input_text` of `simplify_text.py` (length cap 8000). -/
def clean_input_text_simplify (s : String) : String := (cleanCore 8000 s.toList).asString

/-- The JSON value model: the result type of the modelled `json.loads`. -/
inductive JsonVal where
  | null : JsonVal
  | bool : Bool → JsonVal
  | int : Int → JsonVal
  | str : String → JsonVal
  | list : List JsonVal → JsonVal
  | obj : List (String × JsonVal) → JsonVal
deriving Repr

mutual

/-- Model of Python `==` on JSON values (as used by `in` on option lists):
values of different JSON types never compare equal here; the pipeline only
ever compares a string against option entries. -/
def jsonEq : JsonVal → JsonVal → Bool
  | .null, .null => true
  | .bool a, .bool b => a == b
  | .int a, .int b => a == b
  | .str a, .str b => a == b
  | .list xs, .list ys => jsonEqL xs ys
  | .obj xs, .obj ys => jsonEqO xs ys
  | _, _ => false

def jsonEqL : List JsonVal → List JsonVal → Bool
  | [], [] => true
  | x :: xs, y :: ys => jsonEq x y && jsonEqL xs ys
  | _, _ => false

def jsonEqO : List (String × JsonVal) → List (String × JsonVal) → Bool
  | [], [] => true
  | (k, v) :: xs, (k2, v2) :: ys => k == k2 && jsonEq v v2 && jsonEqO xs ys
  | _, _ => false

end

/-- Model of Python's `x in lst` for a JSON value against a list. -/
def jsonMem (x : JsonVal) (l : List JsonVal) : Bool := l.any (jsonEq x)

/-- Python exceptions surfaced by the pipeline.  `jsonRecoveryFailed e s`
models `RuntimeError(f"Failed to parse JSON after all repair attempts. "
f"Error: {e}. Raw text (first 500 chars): {s}")` with its two interpolated
components kept structured. -/
inductive PyErr where
  | valueError : String → PyErr
  | runtimeError : String → PyErr
  | attributeError : PyErr
  | typeError : PyErr
  | jsonRecoveryFailed : String → String → PyErr
deriving DecidableEq, Repr

/-- JSON lexical whitespace (`json.decoder` skips exactly these four). -/
def jsonWs (c : Char) : Bool := c = ' ' || c = '\t' || c = '\n' || c = '\r'

/-- Skip JSON lexical whitespace. -/
def skipJsonWs (l : List Char) : List Char := l.dropWhile jsonWs

/-- Hex digit value, for `\uXXXX` escapes. -/
def hexVal (c : Char) : Option Nat :=
  if '0' ≤ c ∧ c ≤ '9' then some (c.toNat - 48)
  else if 'a' ≤ c ∧ c ≤ 'f' then some (c.toNat - 87)
  else if 'A' ≤ c ∧ c ≤ 'F' then some (c.toNat - 70)
  else none

/-- Body of a JSON string literal, after the opening quote: accumulates
characters (in reverse) until the closing quote, handling the escape
sequences of the JSON grammar.  Unpaired `\uXXXX` surrogate halves are
mapped to `Char.ofNat`'s fallback; Python would build a lone surrogate,
which Lean `Char` cannot represent — the pipeline never produces one. -/
def parseStrBody : List Char → List Char → Except String (String × List Char)
  | acc, '"' :: rest => .ok (acc.reverse.asString, rest)
  | acc, '\\' :: e :: rest =>
    if e = '"' then parseStrBody ('"' :: acc) rest
    else if e = '\\' then parseStrBody ('\\' :: acc) rest
    else if e = '/' then parseStrBody ('/' :: acc) rest
    else if e = 'b' then parseStrBody ('\x08' :: acc) rest
    else if e = 'f' then parseStrBody ('\x0c' :: acc) rest
    else if e = 'n' then parseStrBody ('\n' :: acc) rest
    else if e = 'r' then parseStrBody ('\r' :: acc) rest
    else if e = 't' then parseStrBody ('\t' :: acc) rest
    else if e = 'u' then
      match rest with
      | h1 :: h2 :: h3 :: h4 :: rest2 =>
        match hexVal h1, hexVal h2, hexVal h3, hexVal h4 with
        | some a, some b, some c, some d =>
          parseStrBody (Char.ofNat (((a * 16 + b) * 16 + c) * 16 + d) :: acc) rest2
        | _, _, _, _ => .error "Invalid \\uXXXX escape"
      | _ => .error "Invalid \\uXXXX escape"
    else .error "Invalid \\escape"
  | acc, c :: rest =>
    if c.toNat < 32 then .error "Invalid control character"
    else parseStrBody (c :: acc) rest
  | _, [] => .error "Unterminated string starting at"

/-- Digits to a natural number. -/
def digitsToNat (ds : List Char) : Nat := ds.foldl (fun n c => n * 10 + (c.toNat - 48)) 0

/-- JSON number literal.  Restricted to the integer part of the grammar:
a fraction or exponent makes the model fail where Python would produce a
float — no claim in this development evaluates the parser on a float. -/
def parseNum (l : List Char) : Except String (JsonVal × List Char) :=
  let (neg, l1) : Bool × List Char := match l with
    | '-' :: r => (true, r)
    | _ => (false, l)
  let ds := l1.takeWhile Char.isDigit
  match ds with
  | [] => .error "Expecting value"
  | d :: drest =>
    -- the JSON lexer matches `0|[1-9]\d*`: a leading zero ends the literal
    let ds2 := if d = '0' ∧ drest ≠ [] then ['0'] else ds
    let rest := l1.drop ds2.length
    match rest with
    | c :: _ =>
      if c = '.' ∨ c = 'e' ∨ c = 'E' then .error "float literal outside integer model"
      else .ok (.int (if neg then -(digitsToNat ds2 : Int) else (digitsToNat ds2 : Int)), rest)
    | [] => .ok (.int (if neg then -(digitsToNat ds2 : Int) else (digitsToNat ds2 : Int)), [])

/-- Python-dict insertion: an existing key keeps its position and gets the
new value, a new key is appended. -/
def insertKey (k : String) (v : JsonVal) : List (String × JsonVal) → List (String × JsonVal)
  | [] => [(k, v)]
  | (k2, v2) :: rest => if k2 = k then (k2, v) :: rest else (k2, v2) :: insertKey k v rest

mutual

/-- JSON value parser (fuel-indexed so that it reduces in the kernel). -/
def parseValue : Nat → List Char → Except String (JsonVal × List Char)
  | 0, _ => .error "fuel exhausted"
  | _ + 1, [] => .error "Expecting value"
  | fuel + 1, c :: rest =>
    if c = '{' then
      match skipJsonWs rest with
      | '}' :: r2 => .ok (.obj [], r2)
      | r2 => parseObjRest fuel [] r2
    else if c = '[' then
      match skipJsonWs rest with
      | ']' :: r2 => .ok (.list [], r2)
      | r2 => parseArrRest fuel [] r2
    else if c = '"' then
      match parseStrBody [] rest with
      | .ok (s, r2) => .ok (.str s, r2)
      | .error e => .error e
    else if c = 't' then
      match rest with
      | 'r' :: 'u' :: 'e' :: r2 => .ok (.bool true, r2)
      | _ => .error "Expecting value"
    else if c = 'f' then
      match rest with
      | 'a' :: 'l' :: 's' :: 'e' :: r2 => .ok (.bool false, r2)
      | _ => .error "Expecting value"
    else if c = 'n' then
      match rest with
      | 'u' :: 'l' :: 'l' :: r2 => .ok (.null, r2)
      | _ => .error "Expecting value"
    else if c = '-' ∨ c.isDigit then parseNum (c :: rest)
    else .error "Expecting value"

/-- Members of a JSON object after the first has started. -/
def parseObjRest : Nat → List (String × JsonVal) → List Char → Except String (JsonVal × List Char)
  | 0, _, _ => .error "fuel exhausted"
  | fuel + 1, acc, l =>
    match l with
    | '"' :: r1 =>
      match parseStrBody [] r1 with
      | .error e => .error e
      | .ok (k, r2) =>
        match skipJsonWs r2 with
        | ':' :: r3 =>
          match parseValue fuel (skipJsonWs r3) with
          | .error e => .error e
          | .ok (v, r4) =>
            match skipJsonWs r4 with
            | ',' :: r5 => parseObjRest fuel (insertKey k v acc) (skipJsonWs r5)
            | '}' :: r5 => .ok (.obj (insertKey k v acc), r5)
            | _ => .error "Expecting ',' delimiter"
        | _ => .error "Expecting ':' delimiter"
    | _ => .error "Expecting property name enclosed in double quotes"

/-- Elements of a JSON array after the first has started. -/
def parseArrRest : Nat → List JsonVal → List Char → Except String (JsonVal × List Char)
  | 0, _, _ => .error "fuel exhausted"
  | fuel + 1, acc, l =>
    match parseValue fuel l with
    | .error e => .error e
    | .ok (v, r1) =>
      match skipJsonWs r1 with
      | ',' :: r2 => parseArrRest fuel (v :: acc) (skipJsonWs r2)
      | ']' :: r2 => .ok (.list (v :: acc).reverse, r2)
      | _ => .error "Expecting ',' delimiter"

end

/-- Model of Python's `json.loads`: parse one JSON document, tolerating
surrounding whitespace, and reject trailing content (`Extra data`). -/
def json_loads (s : String) : Except String JsonVal :=
  match parseValue (s.toList.length + 1) (skipJsonWs s.toList) with
  | .error e => .error e
  | .ok (v, rest) =>
    if skipJsonWs rest = [] then .ok v else .error "Extra data"

example : cleanCore 10000 "a\t\tb".toList = "a  b".toList := by decide

example : pyStripS "  hi " = "hi" := by decide

example : json_loads "\x7b\"a\": [1, -2], \"b\": \"x\"\x7d" =
    .ok (.obj [("a", .list [.int 1, .int (-2)]), ("b", .str "x")]) := by rfl

example : json_loads "3" = .ok (.int 3) := by rfl

example : json_loads "" = .error "Expecting value" := by rfl

example : json_loads "\x7b\x7d \x7b\x7d" = .error "Extra data" := by rfl

/-- The backtick character (kept out of literals). -/
def backquote : Char := Char.ofNat 96

/-- Case-insensitive `json` tag after a code fence (`(?:json)?` with
`re.IGNORECASE`): consume it when present. -/
def stripJsonTag (l : List Char) : List Char :=
  match l with
  | a :: b :: c :: d :: rest =>
    if a.toLower = 'j' ∧ b.toLower = 's' ∧ c.toLower = 'o' ∧ d.toLower = 'n' then rest else l
  | _ => l

/-- `re.sub(r'```(?:json)?\s*', '', text, flags=re.IGNORECASE)`:
left-to-right scan, each match removed, scanning resumes after the match. -/
def subFencesJsonWs : Nat → List Char → List Char
  | 0, l => l
  | _ + 1, [] => []
  | fuel + 1, a :: rest =>
    match rest with
    | b :: c :: rest2 =>
      if a = backquote ∧ b = backquote ∧ c = backquote then
        subFencesJsonWs fuel ((stripJsonTag rest2).dropWhile pyIsSpaceB)
      else a :: subFencesJsonWs fuel rest
    | _ => a :: subFencesJsonWs fuel rest

/-- `re.sub(r'```\s*', '', text)`. -/
def subFencesWs : Nat → List Char → List Char
  | 0, l => l
  | _ + 1, [] => []
  | fuel + 1, a :: rest =>
    match rest with
    | b :: c :: rest2 =>
      if a = backquote ∧ b = backquote ∧ c = backquote then
        subFencesWs fuel (rest2.dropWhile pyIsSpaceB)
      else a :: subFencesWs fuel rest
    | _ => a :: subFencesWs fuel rest

/-- `re.sub(r'```[a-z]*\n?', '', text)` (simplification module fences). -/
def subFencesLangNl : Nat → List Char → List Char
  | 0, l => l
  | _ + 1, [] => []
  | fuel + 1, a :: rest =>
    match rest with
    | b :: c :: rest2 =>
      if a = backquote ∧ b = backquote ∧ c = backquote then
        let r1 := rest2.dropWhile (fun c => 'a' ≤ c && c ≤ 'z')
        let r2 := match r1 with
          | '\n' :: t => t
          | _ => r1
        subFencesLangNl fuel r2
      else a :: subFencesLangNl fuel rest
    | _ => a :: subFencesLangNl fuel rest

/-- `re.sub(r'```', '', text)`. -/
def subFencesBare : Nat → List Char → List Char
  | 0, l => l
  | _ + 1, [] => []
  | fuel + 1, a :: rest =>
    match rest with
    | b :: c :: rest2 =>
      if a = backquote ∧ b = backquote ∧ c = backquote then
        subFencesBare fuel rest2
      else a :: subFencesBare fuel rest
    | _ => a :: subFencesBare fuel rest

/-- `re.sub(r'\*\*([^*]+)\*\*', r'\1', text)`: unwrap bold spans.
On a failed match the scan advances one character, as `re.sub` does. -/
def subBold : Nat → List Char → List Char
  | 0, l => l
  | _ + 1, [] => []
  | fuel + 1, l =>
    match l with
    | '*' :: '*' :: rest =>
      let run := rest.takeWhile (· ≠ '*')
      match run, rest.drop run.length with
      | _ :: _, '*' :: '*' :: rest2 => run ++ subBold fuel rest2
      | _, _ => '*' :: subBold fuel ('*' :: rest)
    | c :: rest => c :: subBold fuel rest
    | [] => []

/-- `re.sub(r'\*([^*]+)\*', r'\1', text)`: unwrap italic spans. -/
def subItalic : Nat → List Char → List Char
  | 0, l => l
  | _ + 1, [] => []
  | fuel + 1, l =>
    match l with
    | '*' :: rest =>
      let run := rest.takeWhile (· ≠ '*')
      match run, rest.drop run.length with
      | _ :: _, '*' :: rest2 => run ++ subItalic fuel rest2
      | _, _ => '*' :: subItalic fuel rest
    | c :: rest => c :: subItalic fuel rest
    | [] => []

/-- `re.sub(r'#+\s*', '', text)`: drop heading markers. -/
def subHeaders : Nat → List Char → List Char
  | 0, l => l
  | _ + 1, [] => []
  | fuel + 1, c :: rest =>
    if c = '#' then subHeaders fuel ((rest.dropWhile (· = '#')).dropWhile pyIsSpaceB)
    else c :: subHeaders fuel rest

/-- `` re.sub(r'`([^`]+)`', r'\1', text) ``: unwrap inline code. -/
def subInlineCode : Nat → List Char → List Char
  | 0, l => l
  | _ + 1, [] => []
  | fuel + 1, c :: rest =>
    if c = backquote then
      let run := rest.takeWhile (· ≠ backquote)
      match run, rest.drop run.length with
      | _ :: _, _ :: rest2 => run ++ subInlineCode fuel rest2
      | _, _ => c :: subInlineCode fuel rest
    else c :: subInlineCode fuel rest

/-- The span from the first `{` to the last `}` when the `}` comes later —
used both for the `text.find('{')` / `text.rfind('}')` slice and for
`re.search(r'\{.*\}', text, re.DOTALL)` (leftmost-greedy gives the same
span). `none` when no such span exists. -/
def braceSpan? (l : List Char) : Option (List Char) :=
  let fromBrace := l.drop (l.takeWhile (· ≠ '{')).length
  match fromBrace with
  | [] => none
  | _ :: _ =>
    let revDrop := fromBrace.reverse.dropWhile (· ≠ '}')
    match revDrop with
    | [] => none
    | _ :: _ => some revDrop.reverse

/-- Character kept by step 4 of `clean_json_output`: the explicit allow-list
adds only space, newline and tab beyond characters that are printable
anyway, so the filter keeps exactly printable characters plus `\n`/`\t`. -/
def keepJsonChar (c : Char) : Bool := pyIsPrintableB c || c = '\n' || c = '\t'

/-- `clean_json_output` (`quiz_generator.py` lines 102–149): strip markdown
fences and emphasis, slice to the outermost brace span, filter characters,
strip, and re-extract a brace span if the result does not start with `{`. -/
def clean_json_output (s : String) : String :=
  if s = "" then ""
  else
    let l := s.toList
    let l1 := subFencesJsonWs (l.length + 1) l
    let l2 := subFencesWs (l1.length + 1) l1
    let l3 := subBold (l2.length + 1) l2
    let l4 := subItalic (l3.length + 1) l3
    let l5 := subHeaders (l4.length + 1) l4
    let l6 := subInlineCode (l5.length + 1) l5
    let l7 := (braceSpan? l6).getD l6
    let l8 := l7.filter keepJsonChar
    let l9 := pyStripL l8
    let l10 := match l9 with
      | '{' :: _ => l9
      | _ => (braceSpan? l9).getD l9
    l10.asString

/-- The brace-counting loop of `repair_json` / strategy 3 of
`extract_json_safely`, started at the first `{`: `.ok e` is the relative
end index `i+1` at which the count returned to zero (the loop's `break`);
`.error count` is the final count when the scan ran off the end. -/
def braceScanGo : List Char → Int → Nat → Except Int Nat
  | [], count, _ => .error count
  | c :: rest, count, i =>
    if c = '{' then braceScanGo rest (count + 1) (i + 1)
    else if c = '}' then
      if count - 1 = 0 then .ok (i + 1) else braceScanGo rest (count - 1) (i + 1)
    else braceScanGo rest count (i + 1)

/-- The balanced-brace slice used by strategy 3 of `extract_json_safely`:
from the first `{`, scan counting braces; when the count returns to zero,
that exact span.  `none` when there is no `{` or the braces never balance. -/
def balancedSpan? (l : List Char) : Option (List Char) :=
  let fromBrace := l.drop (l.takeWhile (· ≠ '{')).length
  match fromBrace with
  | [] => none
  | _ :: _ =>
    match braceScanGo fromBrace 0 0 with
    | .ok endRel => some (fromBrace.take endRel)
    | .error _ => none

/-- ASCII model of `\w` (the source only repairs ASCII LLM output). -/
def isWordChar (c : Char) : Bool := c.isAlpha || c.isDigit || c = '_'

/-- `re.sub(r'(\w+):', r'"\1":', text)`: quote bare keys. -/
def fixKeys : Nat → List Char → List Char
  | 0, l => l
  | _ + 1, [] => []
  | fuel + 1, c :: rest =>
    if isWordChar c then
      let run := rest.takeWhile isWordChar
      match rest.drop run.length with
      | ':' :: rest2 => '"' :: c :: (run ++ '"' :: ':' :: fixKeys fuel rest2)
      | _ => c :: fixKeys fuel rest
    else c :: fixKeys fuel rest

/-- `re.sub(r"'([^']*)'", r'"\1"', text)`: single to double quotes. -/
def fixQuotes : Nat → List Char → List Char
  | 0, l => l
  | _ + 1, [] => []
  | fuel + 1, c :: rest =>
    if c = '\'' then
      let run := rest.takeWhile (· ≠ '\'')
      match rest.drop run.length with
      | _ :: rest2 => '"' :: (run ++ '"' :: fixQuotes fuel rest2)
      | [] => c :: fixQuotes fuel rest
    else c :: fixQuotes fuel rest

/-- `re.sub(r',\s*}', '}', text)`: drop trailing commas before `}`. -/
def fixCommaBrace : Nat → List Char → List Char
  | 0, l => l
  | _ + 1, [] => []
  | fuel + 1, c :: rest =>
    if c = ',' then
      match rest.dropWhile pyIsSpaceB with
      | '}' :: r2 => '}' :: fixCommaBrace fuel r2
      | _ => c :: fixCommaBrace fuel rest
    else c :: fixCommaBrace fuel rest

/-- `re.sub(r',\s*]', ']', text)`: drop trailing commas before `]`. -/
def fixCommaBracket : Nat → List Char → List Char
  | 0, l => l
  | _ + 1, [] => []
  | fuel + 1, c :: rest =>
    if c = ',' then
      match rest.dropWhile pyIsSpaceB with
      | ']' :: r2 => ']' :: fixCommaBracket fuel r2
      | _ => c :: fixCommaBracket fuel rest
    else c :: fixCommaBracket fuel rest

/-- `re.sub(r'}\s*{', '},{', text)`: insert commas between objects. -/
def fixBraceBrace : Nat → List Char → List Char
  | 0, l => l
  | _ + 1, [] => []
  | fuel + 1, c :: rest =>
    if c = '}' then
      match rest.dropWhile pyIsSpaceB with
      | '{' :: r2 => '}' :: ',' :: '{' :: fixBraceBrace fuel r2
      | _ => c :: fixBraceBrace fuel rest
    else c :: fixBraceBrace fuel rest

/-- `re.sub(r']\s*\[', '],[', text)`: insert commas between arrays. -/
def fixBracketBracket : Nat → List Char → List Char
  | 0, l => l
  | _ + 1, [] => []
  | fuel + 1, c :: rest =>
    if c = ']' then
      match rest.dropWhile pyIsSpaceB with
      | '[' :: r2 => ']' :: ',' :: '[' :: fixBracketBracket fuel r2
      | _ => c :: fixBracketBracket fuel rest
    else c :: fixBracketBracket fuel rest

/-- `repair_json` (`quiz_generator.py` lines 156–219): locate the brace
span (patching unbalanced braces as the source does), then apply the four
textual repair substitutions in source order. -/
def repair_json (s : String) : String :=
  if s = "" then "\x7b\x7d"
  else
    let l := s.toList
    let fromBrace := l.drop (l.takeWhile (· ≠ '{')).length
    match fromBrace with
    | [] => "\x7b\x7d"
    | _ :: _ =>
      let candidate :=
        match braceScanGo fromBrace 0 0 with
        | .ok endRel => fromBrace.take endRel
        | .error count =>
          if 0 < count then
            -- end_idx is still start_idx, so text[:end_idx] + '}'*count
            -- leaves exactly the appended closing braces in the slice
            List.replicate count.toNat '}'
          else if count = 0 then []
          else
            -- unreachable in the source (the scan breaks at zero): it then
            -- extends the slice to the next '}' if any
            match fromBrace with
            | b :: r =>
              b :: (r.takeWhile (· ≠ '}') ++ (if r.dropWhile (· ≠ '}') = [] then [] else ['}']))
            | [] => []
      let c1 := fixKeys (candidate.length + 1) candidate
      let c2 := fixQuotes (c1.length + 1) c1
      let c3 := fixCommaBrace (c2.length + 1) c2
      let c4 := fixCommaBracket (c3.length + 1) c3
      let c5 := fixBraceBrace (c4.length + 1) c4
      let c6 := fixBracketBracket (c5.length + 1) c5
      c6.asString

/-- Strategy 4 of `extract_json_safely` with its terminal error: repair the
cleaned candidate and parse; on failure raise with the last parser error
and the first 500 characters of the original raw text. -/
def tryStrategy4 (cleaned text : String) : Except PyErr JsonVal :=
  match json_loads (repair_json cleaned) with
  | .ok v => .ok v
  | .error e => .error (.jsonRecoveryFailed e (text.take 500))

/-- Strategy 3 of `extract_json_safely`, falling through to strategy 4. -/
def tryStrategy3 (cleaned text : String) : Except PyErr JsonVal :=
  match balancedSpan? cleaned.toList with
  | some sp =>
    match json_loads sp.asString with
    | .ok v => .ok v
    | .error _ => tryStrategy4 cleaned text
  | none => tryStrategy4 cleaned text

/-- `extract_json_safely` (`quiz_generator.py` lines 222–282): guard the
empty reply, then try the four strategies in source order. -/
def extract_json_safely (text : String) : Except PyErr JsonVal :=
  if text = "" then .error (.runtimeError "Empty response from LLM.")
  else
    let cleaned := clean_json_output text
    match json_loads cleaned with
    | .ok v => .ok v
    | .error _ =>
      match braceSpan? cleaned.toList with
      | some sp =>
        match json_loads sp.asString with
        | .ok v => .ok v
        | .error _ => tryStrategy3 cleaned text
      | none => tryStrategy3 cleaned text

/-- Spec-side strategy 1: "direct parse of the sanitized text". -/
def recoverStrategy1 (c : String) : Option JsonVal := (json_loads c).toOption

/-- Spec-side strategy 2: "regex extraction of the first `{...}` span"
(greedy across newlines: first `{` to last `}`). -/
def recoverStrategy2 (c : String) : Option JsonVal :=
  (braceSpan? c.toList).bind fun sp => (json_loads sp.asString).toOption

/-- Spec-side strategy 3: "brace-balanced scan from the first `{`". -/
def recoverStrategy3 (c : String) : Option JsonVal :=
  (balancedSpan? c.toList).bind fun sp => (json_loads sp.asString).toOption

/-- Spec-side strategy 4: "heuristic repair then parse". -/
def recoverStrategy4 (c : String) : Option JsonVal :=
  (json_loads (repair_json c)).toOption

/-- The recovery contract as the spec words it: the four strategies in
order, first success wins, and after all four fail an error carrying the
final parser error and the first 500 characters of the raw text. -/
def recover_spec (t : String) : Except PyErr JsonVal :=
  let c := clean_json_output t
  match recoverStrategy1 c with
  | some v => .ok v
  | none =>
    match recoverStrategy2 c with
    | some v => .ok v
    | none =>
      match recoverStrategy3 c with
      | some v => .ok v
      | none =>
        match recoverStrategy4 c with
        | some v => .ok v
        | none =>
          .error (.jsonRecoveryFailed
            (match json_loads (repair_json c) with
              | .error e => e
              | .ok _ => "")
            (t.take 500))

example : extract_json_safely "3" = .ok (.int 3) := by rfl

example : extract_json_safely "" = .error (.runtimeError "Empty response from LLM.") := by rfl

example : recover_spec "" = .ok (.obj []) := by rfl

/-- A validated multiple-choice item as `_validate_quiz` emits it: the
question and answer are stripped strings, the options are the first four
elements of the supplied options list (kept as raw JSON values, exactly as
the source copies them). -/
structure MCQItem where
  q : String
  options : List JsonVal
  answer : String
deriving Repr

/-- A validated short-answer item. -/
structure ShortItem where
  q : String
  answer : String
deriving Repr, DecidableEq

/-- The validated quiz returned by `_validate_quiz`. -/
structure ValidQuiz where
  mcq : List MCQItem
  short : List ShortItem
deriving Repr

/-- First value stored under a key of a (Python-dict-modelling) association
list. -/
def lookupKey (kvs : List (String × JsonVal)) (k : String) : Option JsonVal :=
  (kvs.find? (fun p => p.1 = k)).map (·.2)

/-- `d.get(k, "").strip()` for a field that must be a string: absent keys
default to `""`; a present non-string value makes `.strip()` raise
`AttributeError`, which the source does not catch. -/
def pyGetStrStripped (kvs : List (String × JsonVal)) (k : String) : Except PyErr String :=
  match lookupKey kvs k with
  | none => .ok ""
  | some (.str s) => .ok (pyStripS s)
  | some _ => .error .attributeError

/-- Python iteration over the value found under `mcq`/`short`: lists
iterate their elements, strings their characters (as 1-character strings),
dicts their keys; other values raise `TypeError`. -/
def pyIterList : JsonVal → Except PyErr (List JsonVal)
  | .list xs => .ok xs
  | .str s => .ok (s.toList.map (fun c => .str ([c].asString)))
  | .obj kvs => .ok (kvs.map (fun p => .str p.1))
  | _ => .error .typeError

/-- One iteration of the MCQ loop of `_validate_quiz`: non-dict entries are
skipped; a dict entry is kept when the stripped question is non-empty, the
options value is a list of length ≥ 2, the stripped answer is non-empty and
(under Python `==`) occurs among the options; kept entries carry at most
their first four options. -/
def processMCQItem (v : JsonVal) : Except PyErr (Option MCQItem) :=
  match v with
  | .obj kvs =>
    match pyGetStrStripped kvs "q" with
    | .error e => .error e
    | .ok question =>
      match pyGetStrStripped kvs "answer" with
      | .error e => .error e
      | .ok answer =>
        match (lookupKey kvs "options").getD (.list []) with
        | .list opts =>
          if question ≠ "" ∧ 2 ≤ opts.length ∧ answer ≠ "" ∧ jsonMem (.str answer) opts then
            .ok (some ⟨question, opts.take 4, answer⟩)
          else .ok none
        | _ => .ok none
  | _ => .ok none

/-- One iteration of the short-answer loop of `_validate_quiz`. -/
def processShortItem (v : JsonVal) : Except PyErr (Option ShortItem) :=
  match v with
  | .obj kvs =>
    match pyGetStrStripped kvs "q" with
    | .error e => .error e
    | .ok question =>
      match pyGetStrStripped kvs "answer" with
      | .error e => .error e
      | .ok answer =>
        if question ≠ "" ∧ answer ≠ "" then .ok (some ⟨question, answer⟩) else .ok none
  | _ => .ok none

/-- The accumulating validation loop: the first crashing item aborts. -/
def collectItems (f : JsonVal → Except PyErr (Option α)) : List JsonVal → Except PyErr (List α)
  | [] => .ok []
  | v :: rest =>
    match f v with
    | .error e => .error e
    | .ok (some b) =>
      match collectItems f rest with
      | .error e => .error e
      | .ok bs => .ok (b :: bs)
    | .ok none => collectItems f rest

/-- `_validate_quiz` (`quiz_generator.py` lines 443–512): default missing
`mcq`/`short` to empty lists, filter both item lists, then enforce the
≥3 / ≥2 cardinality and truncate to the first 3 / first 2.  A non-dict
argument makes the source's `quiz.setdefault` raise `AttributeError`. -/
def validate_quiz (quiz : JsonVal) : Except PyErr ValidQuiz :=
  match quiz with
  | .obj kvs =>
    match pyIterList ((lookupKey kvs "mcq").getD (.list [])) with
    | .error e => .error e
    | .ok mitems =>
    match collectItems processMCQItem mitems with
    | .error e => .error e
    | .ok validMcq =>
    match pyIterList ((lookupKey kvs "short").getD (.list [])) with
    | .error e => .error e
    | .ok sitems =>
    match collectItems processShortItem sitems with
    | .error e => .error e
    | .ok validShort =>
    if validMcq.length < 3 then
      .error (.runtimeError s!"Quiz incomplete: Expected at least 3 MCQs, got {validMcq.length}.")
    else if validShort.length < 2 then
      .error (.runtimeError
        s!"Quiz incomplete: Expected at least 2 short-answer questions, got {validShort.length}.")
    else
      .ok ⟨validMcq.take 3, validShort.take 2⟩
  | _ => .error .attributeError

/-- `generate_quiz` (`quiz_generator.py` lines 519–567).  The backend call
(`_call_openai`/`_call_gemini` up to envelope extraction — network I/O and
response unwrapping, selected by the `sk-` key sniff) is abstracted as the
oracle `callLLM`, which receives the cleaned input text and the API key and
yields the extracted raw reply text or a backend error; the reply then goes
through `extract_json_safely` and `_validate_quiz` exactly as in the source. -/
def generate_quiz (callLLM : String → String → Except PyErr String)
    (text api_key : String) : Except PyErr ValidQuiz :=
  if api_key = "" then .error (.valueError "API key required.")
  else if text = "" ∨ pyStripS text = "" then .ok ⟨[], []⟩
  else
    let cleaned_input := clean_input_text_quiz text
    if cleaned_input = "" then .ok ⟨[], []⟩
    else do
      let raw ← callLLM cleaned_input api_key
      let quiz ← extract_json_safely raw
      validate_quiz quiz

/-- Character kept by step 3 (and step 8) of `clean_output_text`:
printable or newline. -/
def keepOutChar (c : Char) : Bool := pyIsPrintableB c || c = '\n'

/-- Does the line begin with the canonical `"- "` prefix? -/
def startsDashSpace : List Char → Bool
  | '-' :: ' ' :: _ => true
  | _ => false

/-- Is the first character Python whitespace (the `\s+` after a marker)? -/
def headIsSpace : List Char → Bool
  | d :: _ => pyIsSpaceB d
  | [] => false

/-- Does the list begin with `.` or `)` followed by whitespace (the
`[.)]\s+` part of the numbered-marker pattern)? -/
def dotParenSpace : List Char → Bool
  | p :: q :: _ => (p = '.' || p = ')') && pyIsSpaceB q
  | _ => false

/-- Step 4 of `clean_output_text` on one stripped non-empty line: normalize
a leading `-`/`•`/`*` marker (followed by whitespace) or a leading
`digits.`/`digits)` marker to `"- "`, and prepend `"- "` to lines with no
recognized marker. -/
def markerNorm (line : List Char) : List Char :=
  match line with
  | [] => []
  | c :: rest =>
    if (c = '-' ∨ c = '•' ∨ c = '*') ∧ headIsSpace rest then
      '-' :: ' ' :: rest.dropWhile pyIsSpaceB
    else
      let ds := (c :: rest).takeWhile Char.isDigit
      let after := (c :: rest).drop ds.length
      if ds ≠ [] ∧ dotParenSpace after then
        match after with
        | _ :: r => '-' :: ' ' :: r.dropWhile pyIsSpaceB
        | [] => line
      else if startsDashSpace (c :: rest) then c :: rest
      else '-' :: ' ' :: c :: rest

/-- Step 6 of `clean_output_text` on one retained bullet: strip the `"- "`
prefix, strip and space-collapse the body, truncate to the first 12 words
when longer, and drop the bullet if the body came out empty. -/
def cleanPoint (p : List Char) : Option (List Char) :=
  let content := collapseSP (pyStripL (p.drop 2))
  let ws := pySplitWs content
  let content2 := if 12 < ws.length then joinSP (ws.take 12) else content
  if content2 = [] then none else some ('-' :: ' ' :: content2)

/-- `clean_output_text` (`simplify_text.py` lines 95–182): strip fences and
emphasis, filter to printable-plus-newline, canonicalize bullet markers per
line, cap at 10 bullets, clean each bullet body, and join. -/
def clean_output_text (s : String) : String :=
  if s = "" then ""
  else
    let l := s.toList
    let l1 := subFencesLangNl (l.length + 1) l
    let l2 := subFencesBare (l1.length + 1) l1
    let l3 := subBold (l2.length + 1) l2
    let l4 := subItalic (l3.length + 1) l3
    let l5 := subHeaders (l4.length + 1) l4
    let l6 := subInlineCode (l5.length + 1) l5
    let l7 := l6.filter keepOutChar
    let lines := ((splitPred isNL l7).map pyStripL).filter (· ≠ [])
    let processed := lines.map markerNorm
    let bullets := processed.filter startsDashSpace
    let capped := if 10 < bullets.length then bullets.take 10 else bullets
    let cleanedPts := capped.filterMap cleanPoint
    let joined := joinNL cleanedPts
    (pyStripL (joined.filter keepOutChar)).asString

/-- Non-overlapping occurrences of the substring `"- "` — Python's
`text.count('- ')`. -/
def countDashSpace : List Char → Nat
  | '-' :: ' ' :: rest => 1 + countDashSpace rest
  | _ :: rest => countDashSpace rest
  | [] => 0

/-- Steps 6–7 of `simplify_text` (`simplify_text.py` lines 293–304): reject
a cleaned output that strips to fewer than 10 characters, then reject one
with fewer than 5 occurrences of `'- '`; otherwise return it unchanged. -/
def validate_simplified (out : String) : Except PyErr String :=
  if out = "" ∨ (pyStripS out).length < 10 then
    .error (.runtimeError "Simplified text is too short or empty.")
  else
    let n := countDashSpace out.toList
    if n < 5 then
      .error (.runtimeError s!"Invalid output format. Expected bullet points, got {n}.")
    else .ok out

/-- `simplify_text` (`simplify_text.py` lines 210–304).  As with
`generate_quiz`, the network call plus `_extract_text_from_response` is the
oracle `callLLM`; the emptiness check on the extracted reply, the output
cleaning and the validation follow the source. -/
def simplify_text (callLLM : String → String → Except PyErr String)
    (text api_key : String) : Except PyErr String :=
  if api_key = "" then .error (.valueError "Gemini API key is required.")
  else if text = "" ∨ pyStripS text = "" then .ok ""
  else
    let cleaned_input := clean_input_text_simplify text
    if cleaned_input = "" then .ok ""
    else do
      let raw ← callLLM cleaned_input api_key
      if raw = "" then .error (.runtimeError "Gemini API returned no content.")
      else
        let out := clean_output_text raw
        validate_simplified out

example : clean_output_text "1. foo bar" = "- foo bar" := by rfl

example : clean_output_text "* foo bar" = "- foo bar" := by rfl

example : clean_output_text "• foo bar" = "- foo bar" := by rfl

example : clean_output_text "foo bar" = "- foo bar" := by rfl

/-! ### Toolkit: `strip` characterization -/

/-- A list whose head (if any) fails `p` is unchanged by `dropWhile p`. -/
theorem dropWhile_eq_self_of_head {p : Char → Bool} {l : List Char}
    (h : ∀ c ∈ l.head?, p c = false) : l.dropWhile p = l := by
  cases l with
  | nil => rfl
  | cons c rest =>
    have hc : p c = false := h c rfl
    simp [List.dropWhile_cons, hc]

/-- Conversely, `dropWhile p l = l` forces the head to fail `p`. -/
theorem head_not_of_dropWhile_eq_self {p : Char → Bool} {l : List Char}
    (h : l.dropWhile p = l) : ∀ c ∈ l.head?, p c = false := by
  intro c hc
  cases l with
  | nil => simp at hc
  | cons a rest =>
    simp at hc
    subst hc
    cases hpc : p a with
    | false => rfl
    | true =>
      rw [List.dropWhile_cons, if_pos hpc] at h
      have hle := (List.dropWhile_suffix (l := rest) p).length_le
      have hlen : (a :: rest).length ≤ rest.length := by rw [← h]; exact hle
      simp at hlen

/-- The head of `dropWhile p l` fails `p`. -/
theorem head_dropWhile_not (p : Char → Bool) (l : List Char) :
    ∀ c ∈ (l.dropWhile p).head?, p c = false := by
  induction l with
  | nil => intro c hc; simp at hc
  | cons a rest ih =>
    intro c hc
    rw [List.dropWhile_cons] at hc
    by_cases hpa : p a = true
    · rw [if_pos hpa] at hc
      exact ih c hc
    · rw [if_neg hpa] at hc
      simp at hc
      subst hc
      cases h : p a with
      | false => rfl
      | true => exact absurd h hpa

/-- `dropWhile` is idempotent. -/
theorem dropWhile_idem (p : Char → Bool) (l : List Char) :
    (l.dropWhile p).dropWhile p = l.dropWhile p :=
  dropWhile_eq_self_of_head (head_dropWhile_not p l)

theorem stripL_suffix (l : List Char) : stripL l <:+ l := List.dropWhile_suffix _

theorem stripR_pref (l : List Char) : stripR l <+: l := by
  unfold stripR
  obtain ⟨s, hs⟩ := List.dropWhile_suffix (l := l.reverse) pyIsSpaceB
  exact ⟨s.reverse, by rw [← List.reverse_append, hs, List.reverse_reverse]⟩

theorem mem_stripL {c : Char} {l : List Char} (h : c ∈ stripL l) : c ∈ l :=
  (stripL_suffix l).subset h

theorem mem_stripR {c : Char} {l : List Char} (h : c ∈ stripR l) : c ∈ l :=
  (stripR_pref l).subset h

theorem mem_pyStripL {c : Char} {l : List Char} (h : c ∈ pyStripL l) : c ∈ l :=
  mem_stripL (mem_stripR h)

theorem pyStripL_length_le (l : List Char) : (pyStripL l).length ≤ l.length :=
  le_trans ((stripR_pref (stripL l)).length_le) ((stripL_suffix l).length_le)

/-- A nonempty prefix starts with the same head. -/
theorem head?_of_pref {l m : List Char} (h : l <+: m) :
    ∀ c ∈ l.head?, m.head? = some c := by
  obtain ⟨t, rfl⟩ := h
  intro c hc
  cases l with
  | nil => simp at hc
  | cons a rest => simp at hc; simp [hc]

theorem stripR_idem (l : List Char) : stripR (stripR l) = stripR l := by
  unfold stripR
  rw [List.reverse_reverse, dropWhile_idem]

theorem stripL_stripR_comm (l : List Char) (h : stripL l = l) :
    stripL (stripR l) = stripR l := by
  apply dropWhile_eq_self_of_head
  intro c hc
  exact head_not_of_dropWhile_eq_self h c (head?_of_pref (stripR_pref l) c hc)

theorem pyStripL_idem (l : List Char) : pyStripL (pyStripL l) = pyStripL l := by
  unfold pyStripL
  rw [stripL_stripR_comm (stripL l) (dropWhile_idem _ _), stripR_idem]

/-- The `getLast?` of `stripR` fails `p` (whitespace). -/
theorem getLast_stripR_not (l : List Char) :
    ∀ c ∈ (stripR l).getLast?, pyIsSpaceB c = false := by
  intro c hc
  unfold stripR at hc
  rw [← List.head?_reverse, List.reverse_reverse] at hc
  exact head_dropWhile_not pyIsSpaceB l.reverse c hc

/-- `strip` leaves a list unchanged iff neither end is whitespace. -/
theorem pyStripL_eq_self_iff (l : List Char) :
    pyStripL l = l ↔
      (∀ c ∈ l.head?, pyIsSpaceB c = false) ∧ (∀ c ∈ l.getLast?, pyIsSpaceB c = false) := by
  constructor
  · intro h
    have hlenL : (stripL l).length = l.length := by
      have h1 := (stripR_pref (stripL l)).length_le
      have h2 := (stripL_suffix l).length_le
      have h3 : (pyStripL l).length = l.length := by rw [h]
      unfold pyStripL at h3
      omega
    have hL : stripL l = l := (stripL_suffix l).eq_of_length hlenL
    have hR : stripR l = l := by
      have h4 : pyStripL l = stripR l := by unfold pyStripL; rw [hL]
      rw [← h4, h]
    constructor
    · exact head_not_of_dropWhile_eq_self hL
    · intro c hc
      rw [← hR] at hc
      exact getLast_stripR_not l c hc
  · rintro ⟨h1, h2⟩
    have hL : stripL l = l := dropWhile_eq_self_of_head h1
    have hR : stripR l = l := by
      unfold stripR
      have h5 : l.reverse.dropWhile pyIsSpaceB = l.reverse := by
        apply dropWhile_eq_self_of_head
        intro c hc
        rw [List.head?_reverse] at hc
        exact h2 c hc
      rw [h5, List.reverse_reverse]
    unfold pyStripL
    rw [hL, hR]

/-- The ends of a stripped list fail `pyIsSpaceB`. -/
theorem pyStripL_head_not (l : List Char) :
    ∀ c ∈ (pyStripL l).head?, pyIsSpaceB c = false :=
  ((pyStripL_eq_self_iff (pyStripL l)).mp (pyStripL_idem l)).1

theorem pyStripL_getLast_not (l : List Char) :
    ∀ c ∈ (pyStripL l).getLast?, pyIsSpaceB c = false :=
  ((pyStripL_eq_self_iff (pyStripL l)).mp (pyStripL_idem l)).2

/-! ### Toolkit: split and join -/

theorem splitPred_ne_nil (p : Char → Bool) (l : List Char) : splitPred p l ≠ [] := by
  cases l with
  | nil => simp [splitPred]
  | cons c rest =>
    unfold splitPred
    by_cases h : p c = true
    · simp [h]
    · simp only [h]
      cases splitPred p rest <;> simp

/-- No chunk produced by `splitPred p` contains a separator. -/
theorem splitPred_chunk_no_sep (p : Char → Bool) (l : List Char) :
    ∀ x ∈ splitPred p l, ∀ c ∈ x, p c = false := by
  induction l with
  | nil => intro x hx c hc; simp [splitPred] at hx; subst hx; simp at hc
  | cons a rest ih =>
    intro x hx c hc
    unfold splitPred at hx
    by_cases hpa : p a = true
    · simp [hpa] at hx
      rcases hx with hx | hx
      · subst hx; simp at hc
      · exact ih x hx c hc
    · simp only [hpa] at hx
      rcases hsp : splitPred p rest with _ | ⟨line, ls⟩
      · exact absurd hsp (splitPred_ne_nil p rest)
      · rw [hsp] at hx
        simp at hx
        rcases hx with hx | hx
        · subst hx
          simp at hc
          rcases hc with hc | hc
          · subst hc
            cases hq : p c with
            | false => rfl
            | true => exact absurd hq hpa
          · exact ih line (by rw [hsp]; exact List.mem_cons_self _ _) c hc
        · exact ih x (by rw [hsp]; exact List.mem_cons_of_mem _ hx) c hc

/-- Every character of a chunk is a character of the original list. -/
theorem splitPred_chunk_subset (p : Char → Bool) (l : List Char) :
    ∀ x ∈ splitPred p l, ∀ c ∈ x, c ∈ l := by
  induction l with
  | nil => intro x hx c hc; simp [splitPred] at hx; subst hx; simp at hc
  | cons a rest ih =>
    intro x hx c hc
    unfold splitPred at hx
    by_cases hpa : p a = true
    · simp [hpa] at hx
      rcases hx with hx | hx
      · subst hx; simp at hc
      · exact List.mem_cons_of_mem _ (ih x hx c hc)
    · simp only [hpa] at hx
      rcases hsp : splitPred p rest with _ | ⟨line, ls⟩
      · exact absurd hsp (splitPred_ne_nil p rest)
      · rw [hsp] at hx
        simp at hx
        rcases hx with hx | hx
        · subst hx
          simp at hc
          rcases hc with hc | hc
          · subst hc; exact List.mem_cons_self _ _
          · exact List.mem_cons_of_mem _
              (ih line (by rw [hsp]; exact List.mem_cons_self _ _) c hc)
        · exact List.mem_cons_of_mem _
            (ih x (by rw [hsp]; exact List.mem_cons_of_mem _ hx) c hc)

/-- A separator-free list splits into itself as its only chunk. -/
theorem splitPred_eq_single {p : Char → Bool} {l : List Char}
    (h : ∀ c ∈ l, p c = false) : splitPred p l = [l] := by
  induction l with
  | nil => rfl
  | cons a rest ih =>
    unfold splitPred
    have hpa : p a = false := h a (List.mem_cons_self _ _)
    simp only [hpa]
    rw [ih (fun c hc => h c (List.mem_cons_of_mem _ hc))]
    simp

/-- Splitting after a separator-free block. -/
theorem splitPred_append_sep {p : Char → Bool} {a : List Char}
    (ha : ∀ c ∈ a, p c = false) {s : Char} (hs : p s = true) (b : List Char) :
    splitPred p (a ++ s :: b) = a :: splitPred p b := by
  induction a with
  | nil =>
    show splitPred p (s :: b) = [] :: splitPred p b
    unfold splitPred
    simp only [hs, if_pos]
    congr 1
    cases b <;> rfl
  | cons x xs ih =>
    have hx : p x = false := ha x (List.mem_cons_self _ _)
    have ihx := ih (fun c hc => ha c (List.mem_cons_of_mem _ hc))
    simp only [List.cons_append]
    unfold splitPred
    simp only [hx]
    rw [ihx]
    simp
    cases b <;> rfl

/-- Joining the split reproduces the original list. -/
theorem joinNL_splitPred_isNL (l : List Char) : joinNL (splitPred isNL l) = l := by
  induction l with
  | nil => rfl
  | cons c rest ih =>
    unfold splitPred
    by_cases h : isNL c = true
    · simp only [h, if_pos]
      have : c = '\n' := by
        unfold isNL at h
        exact of_decide_eq_true h
      subst this
      rcases hsp : splitPred isNL rest with _ | ⟨line, ls⟩
      · exact absurd hsp (splitPred_ne_nil isNL rest)
      · rw [hsp] at ih
        show joinNL ([] :: line :: ls) = '\n' :: rest
        unfold joinNL
        simp
        exact ih
    · simp only [h]
      rcases hsp : splitPred isNL rest with _ | ⟨line, ls⟩
      · exact absurd hsp (splitPred_ne_nil isNL rest)
      · rw [hsp] at ih
        cases ls with
        | nil =>
          show joinNL [c :: line] = c :: rest
          unfold joinNL at ih ⊢
          rw [← ih]
        | cons l2 ls2 =>
          show joinNL ((c :: line) :: l2 :: ls2) = c :: rest
          unfold joinNL at ih ⊢
          rw [← ih]
          simp

/-- Splitting a join of newline-free chunks gives the chunks back. -/
theorem splitPred_isNL_joinNL (ls : List (List Char)) (hne : ls ≠ [])
    (h : ∀ x ∈ ls, ∀ c ∈ x, isNL c = false) :
    splitPred isNL (joinNL ls) = ls := by
  induction ls with
  | nil => exact absurd rfl hne
  | cons x rest ih =>
    cases rest with
    | nil =>
      show splitPred isNL (joinNL [x]) = [x]
      unfold joinNL
      exact splitPred_eq_single (h x (List.mem_cons_self _ _))
    | cons y rest2 =>
      show splitPred isNL (x ++ '\n' :: joinNL (y :: rest2)) = x :: y :: rest2
      rw [splitPred_append_sep (h x (List.mem_cons_self _ _)) (by simp [isNL])]
      rw [ih (by simp) (fun z hz c hc => h z (List.mem_cons_of_mem _ hz) c hc)]

/-! ### Toolkit: adjacent-pair scanning -/

theorem hasPair_cons₂ (p q : Char → Bool) (a b : Char) (rest : List Char) :
    hasPair p q (a :: b :: rest) = ((p a && q b) || hasPair p q (b :: rest)) := rfl

theorem hasPair_one (p q : Char → Bool) (a : Char) : hasPair p q [a] = false := rfl

theorem hasPair_nil (p q : Char → Bool) : hasPair p q [] = false := rfl

/-- The pair formed across an append boundary, if both sides contribute. -/
def pairJoin (p q : Char → Bool) (x y : List Char) : Bool :=
  match x.getLast?, y.head? with
  | some a, some b => p a && q b
  | _, _ => false

theorem hasPair_append (p q : Char → Bool) (x y : List Char) :
    hasPair p q (x ++ y) = (hasPair p q x || hasPair p q y || pairJoin p q x y) := by
  induction x with
  | nil =>
    simp [hasPair_nil, pairJoin]
  | cons a x ih =>
    cases x with
    | nil =>
      cases y with
      | nil => simp [hasPair_nil, hasPair_one, pairJoin]
      | cons b t =>
        show hasPair p q (a :: b :: t) = _
        rw [hasPair_cons₂, hasPair_one]
        have : pairJoin p q [a] (b :: t) = (p a && q b) := rfl
        rw [this]
        cases p a && q b <;> cases hasPair p q (b :: t) <;> simp
    | cons a2 x2 =>
      show hasPair p q (a :: a2 :: (x2 ++ y)) = _
      rw [hasPair_cons₂]
      rw [show a2 :: (x2 ++ y) = (a2 :: x2) ++ y from rfl, ih]
      rw [hasPair_cons₂]
      rw [show pairJoin p q (a :: a2 :: x2) y = pairJoin p q (a2 :: x2) y from by
        unfold pairJoin; rw [List.getLast?_cons_cons]]
      cases p a && q a2 <;> cases hasPair p q (a2 :: x2) <;>
        cases hasPair p q y <;> cases pairJoin p q (a2 :: x2) y <;> simp

theorem hasPair_reverse (p q : Char → Bool) (l : List Char) :
    hasPair p q l.reverse = hasPair q p l := by
  induction l with
  | nil => rfl
  | cons h t ih =>
    rw [List.reverse_cons, hasPair_append, hasPair_one]
    cases t with
    | nil => simp [hasPair_nil, hasPair_one, pairJoin]
    | cons b t2 =>
      show _ = hasPair q p (h :: b :: t2)
      rw [hasPair_cons₂, ih]
      have hj : pairJoin p q (b :: t2).reverse [h] = (p b && q h) := by
        unfold pairJoin
        rw [show ((b :: t2).reverse).getLast? = (b :: t2).head? from by
          rw [← List.head?_reverse, List.reverse_reverse]]
        rfl
      rw [hj]
      cases hqh : q h <;> cases hpb : p b <;>
        cases hasPair q p (b :: t2) <;> simp

/-- If no character of `l` satisfies `p`, no pair can start with `p`. -/
theorem hasPair_false_of_no_p {p q : Char → Bool} {l : List Char}
    (h : ∀ c ∈ l, p c = false) : hasPair p q l = false := by
  induction l with
  | nil => rfl
  | cons a t ih =>
    cases t with
    | nil => rfl
    | cons b t2 =>
      rw [hasPair_cons₂, h a (List.mem_cons_self _ _),
        ih (fun c hc => h c (List.mem_cons_of_mem _ hc))]
      rfl

/-- If no character of `l` satisfies `q`, no pair can end with `q`. -/
theorem hasPair_false_of_no_q {p q : Char → Bool} {l : List Char}
    (h : ∀ c ∈ l, q c = false) : hasPair p q l = false := by
  induction l with
  | nil => rfl
  | cons a t ih =>
    cases t with
    | nil => rfl
    | cons b t2 =>
      rw [hasPair_cons₂, h b (List.mem_cons_of_mem _ (List.mem_cons_self _ _)),
        ih (fun c hc => h c (List.mem_cons_of_mem _ hc))]
      simp

/-- Pair-freeness restricts to the pieces of an append. -/
theorem hasPair_append_false {p q : Char → Bool} {x y : List Char}
    (h : hasPair p q (x ++ y) = false) :
    hasPair p q x = false ∧ hasPair p q y = false ∧ pairJoin p q x y = false := by
  rw [hasPair_append] at h
  simp at h
  exact ⟨h.1.1, h.1.2, h.2⟩

/-- Pair-freeness passes to the tail. -/
theorem hasPair_tail_false {p q : Char → Bool} {a : Char} {t : List Char}
    (h : hasPair p q (a :: t) = false) : hasPair p q t = false := by
  cases t with
  | nil => rfl
  | cons b t2 =>
    rw [hasPair_cons₂] at h
    simp at h
    exact h.2

/-- Pair-freeness is inherited along pointwise-weaker predicates. -/
theorem hasPair_imp {p q p' q' : Char → Bool} {l : List Char}
    (hp : ∀ c, p' c = true → p c = true) (hq : ∀ c, q' c = true → q c = true)
    (h : hasPair p q l = false) : hasPair p' q' l = false := by
  induction l with
  | nil => rfl
  | cons a t ih =>
    cases t with
    | nil => rfl
    | cons b t2 =>
      rw [hasPair_cons₂] at h ⊢
      simp at h
      rw [ih h.2]
      rcases h with ⟨h1, _⟩
      cases hpa : p' a with
      | false => simp
      | true =>
        cases hqb : q' b with
        | false => simp
        | true =>
          rw [hp a hpa, hq b hqb] at h1
          simp at h1

theorem hasPair_map (p q : Char → Bool) (f : Char → Char) (l : List Char) :
    hasPair p q (l.map f) = hasPair (fun c => p (f c)) (fun c => q (f c)) l := by
  induction l with
  | nil => rfl
  | cons a t ih =>
    cases t with
    | nil => rfl
    | cons b t2 =>
      show hasPair p q (f a :: f b :: _) = _
      rw [hasPair_cons₂, hasPair_cons₂]
      rw [show (f b :: List.map f t2) = List.map f (b :: t2) from rfl, ih]

/-! ### Toolkit: stripped lines through the whole text -/

/-- All lines of `l` are stripped, expressed locally: no non-newline
whitespace at either end of the text or adjacent to a newline. -/
structure LinesStripped (l : List Char) : Prop where
  headOK : ∀ c ∈ l.head?, nspB c = false
  lastOK : ∀ c ∈ l.getLast?, nspB c = false
  noNLsp : hasPair isNL nspB l = false
  noSpNL : hasPair nspB isNL l = false

theorem nspB_newline : nspB '\n' = false := by decide

theorem isNL_newline : isNL '\n' = true := by decide

theorem eq_newline_of_isNL {c : Char} (h : isNL c = true) : c = '\n' := of_decide_eq_true h

theorem nspB_false_of_sp_false {c : Char} (h : pyIsSpaceB c = false) : nspB c = false := by
  unfold nspB
  rw [h]
  rfl

theorem sp_false_of_nsp_nl {c : Char} (h1 : nspB c = false) (h2 : isNL c = false) :
    pyIsSpaceB c = false := by
  unfold nspB at h1
  unfold isNL at h2
  cases hsp : pyIsSpaceB c with
  | false => rfl
  | true =>
    rw [hsp] at h1
    simp at h1
    rw [h1] at h2
    simp at h2

theorem sp_of_nspB {c : Char} (h : nspB c = true) : pyIsSpaceB c = true := by
  unfold nspB at h
  exact (Bool.and_eq_true_iff.mp h).1

/-- The negation of `isNL`, as used to slice off the first line. -/
def notNL (c : Char) : Bool := !(isNL c)

/-- Every line produced by splitting a `LinesStripped` text is stripped.
(The fuel `n` bounds the length for the recursion.) -/
theorem stripped_of_linesStripped :
    ∀ (n : Nat) (y : List Char), y.length ≤ n → LinesStripped y →
      ∀ line ∈ splitPred isNL y, pyStripL line = line := by
  intro n
  induction n with
  | zero =>
    intro y hlen _ line hline
    have hy : y = [] := List.length_eq_zero.mp (Nat.le_zero.mp hlen)
    subst hy
    simp [splitPred] at hline
    subst hline
    rfl
  | succ n ih =>
    intro y hlen hLS line hline
    have ha_noNL : ∀ c ∈ y.takeWhile notNL, isNL c = false := by
      intro c hc
      have := List.mem_takeWhile_imp hc
      unfold notNL at this
      simp at this
      exact this
    cases hr : y.dropWhile notNL with
    | nil =>
      -- no newline at all: the text is its own single line
      have hy : y.takeWhile notNL = y := by
        have h0 := List.takeWhile_append_dropWhile notNL y
        rw [hr] at h0
        simpa using h0
      have hnoNL : ∀ c ∈ y, isNL c = false := by
        intro c hc
        exact ha_noNL c (by rw [hy]; exact hc)
      rw [splitPred_eq_single hnoNL] at hline
      simp at hline
      subst hline
      rw [pyStripL_eq_self_iff]
      constructor
      · intro c hc
        exact sp_false_of_nsp_nl (hLS.headOK c hc) (hnoNL c (List.mem_of_mem_head? hc))
      · intro c hc
        exact sp_false_of_nsp_nl (hLS.lastOK c hc) (hnoNL c (List.mem_of_mem_getLast? hc))
    | cons s rest =>
      have hy : y.takeWhile notNL ++ s :: rest = y := by
        rw [← hr]; exact List.takeWhile_append_dropWhile notNL y
      have hs : isNL s = true := by
        have hh := head_dropWhile_not notNL y s (by rw [hr]; rfl)
        unfold notNL at hh
        simp at hh
        exact hh
      have hsNL : s = '\n' := eq_newline_of_isNL hs
      subst hsNL
      set a := y.takeWhile notNL with hadef
      have hsplit : splitPred isNL y = a :: splitPred isNL rest := by
        rw [← hy]
        exact splitPred_append_sep ha_noNL isNL_newline rest
      rw [hsplit] at hline
      simp at hline
      rcases hline with hline | hline
      · -- the first line
        subst hline
        rw [pyStripL_eq_self_iff]
        constructor
        · intro c hc
          have hcy : y.head? = some c :=
            head?_of_pref (by rw [← hy]; exact ⟨'\n' :: rest, rfl⟩) c hc
          refine sp_false_of_nsp_nl (hLS.headOK c hcy) (ha_noNL c (List.mem_of_mem_head? hc))
        · intro c hc
          have hnsp : nspB c = false := by
            have hfull := hLS.noSpNL
            rw [← hy] at hfull
            have hjoin := (hasPair_append_false hfull).2.2
            unfold pairJoin at hjoin
            rw [show (('\n' : Char) :: rest).head? = some '\n' from rfl] at hjoin
            have hceq : a.getLast? = some c := hc
            cases hga : a.getLast? with
            | none => rw [hceq] at hga; simp at hga
            | some d =>
              rw [hga] at hjoin
              have hdc : d = c := by
                rw [hceq] at hga
                injection hga with h
                exact h.symm
              subst hdc
              simp [isNL_newline] at hjoin
              exact hjoin
          exact sp_false_of_nsp_nl hnsp (ha_noNL c (List.mem_of_mem_getLast? hc))
      · -- a later line: recurse on the remainder after the first newline
        have hlen2 : rest.length ≤ n := by
          have : y.length = a.length + (1 + rest.length) := by
            rw [← hy]
            simp [List.length_append]
            omega
          omega
        apply ih rest hlen2 ?_ line hline
        have hNLsp := hLS.noNLsp
        have hSpNL := hLS.noSpNL
        rw [← hy] at hNLsp hSpNL
        have h1 := (hasPair_append_false hNLsp).2.1
        have h2 := (hasPair_append_false hSpNL).2.1
        constructor
        · intro c hc
          cases rest with
          | nil => simp at hc
          | cons d t =>
            simp at hc
            subst hc
            rw [hasPair_cons₂] at h1
            simp at h1
            have := h1.1
            rw [isNL_newline] at this
            simpa using this
        · intro c hc
          have hne : rest ≠ [] := by
            intro hrest
            rw [hrest] at hc
            simp at hc
          have : y.getLast? = rest.getLast? := by
            rw [← hy, List.getLast?_append_of_ne_nil _ (by simp),
              show ('\n' :: rest) = ['\n'] ++ rest from rfl,
              List.getLast?_append_of_ne_nil _ hne]
          exact hLS.lastOK c (by rw [this]; exact hc)
        · exact hasPair_tail_false h1
        · exact hasPair_tail_false h2

theorem LinesStripped_nil : LinesStripped [] :=
  ⟨by intro c hc; simp at hc, by intro c hc; simp at hc, rfl, rfl⟩

/-- A stripped, newline-free chunk is `LinesStripped` on its own. -/
theorem LinesStripped_single {x : List Char} (hstrip : pyStripL x = x)
    (hnl : ∀ c ∈ x, isNL c = false) : LinesStripped x := by
  obtain ⟨h1, h2⟩ := (pyStripL_eq_self_iff x).mp hstrip
  refine ⟨?_, ?_, ?_, ?_⟩
  · intro c hc
    exact nspB_false_of_sp_false (h1 c hc)
  · intro c hc
    exact nspB_false_of_sp_false (h2 c hc)
  · exact hasPair_false_of_no_p hnl
  · exact hasPair_false_of_no_q hnl

/-- Joining stripped, newline-free chunks yields a `LinesStripped` text. -/
theorem LinesStripped_joinNL (ls : List (List Char))
    (h : ∀ x ∈ ls, pyStripL x = x ∧ ∀ c ∈ x, isNL c = false) :
    LinesStripped (joinNL ls) := by
  induction ls with
  | nil => exact LinesStripped_nil
  | cons x rest ih =>
    cases rest with
    | nil =>
      obtain ⟨hs, hn⟩ := h x (List.mem_cons_self _ _)
      exact LinesStripped_single hs hn
    | cons y rest2 =>
      obtain ⟨hs, hn⟩ := h x (List.mem_cons_self _ _)
      obtain ⟨hxh, hxl⟩ := (pyStripL_eq_self_iff x).mp hs
      have ihM := ih (fun z hz => h z (List.mem_cons_of_mem _ hz))
      show LinesStripped (x ++ '\n' :: joinNL (y :: rest2))
      set M := joinNL (y :: rest2) with hM
      refine ⟨?_, ?_, ?_, ?_⟩
      · intro c hc
        rw [List.head?_append] at hc
        cases x with
        | nil =>
          simp at hc
          subst hc
          exact nspB_newline
        | cons d t =>
          simp at hc
          subst hc
          exact nspB_false_of_sp_false (hxh _ rfl)
      · intro c hc
        rw [List.getLast?_append_of_ne_nil x (by simp)] at hc
        cases hMc : M with
        | nil =>
          rw [hMc] at hc
          simp at hc
          subst hc
          exact nspB_newline
        | cons m t =>
          rw [show ('\n' :: M) = ['\n'] ++ M from rfl,
            List.getLast?_append_of_ne_nil ['\n'] (by rw [hMc]; simp)] at hc
          exact ihM.lastOK c hc
      · rw [hasPair_append]
        have c1 : hasPair isNL nspB x = false := hasPair_false_of_no_p hn
        have c2 : hasPair isNL nspB ('\n' :: M) = false := by
          cases hMc : M with
          | nil => rfl
          | cons m t =>
            rw [hasPair_cons₂]
            have hm : nspB m = false := ihM.headOK m (by rw [hMc]; rfl)
            rw [hm]
            have : hasPair isNL nspB M = false := ihM.noNLsp
            rw [hMc] at this
            rw [this]
            simp
        have c3 : pairJoin isNL nspB x ('\n' :: M) = false := by
          unfold pairJoin
          cases hg : x.getLast? with
          | none => rfl
          | some d =>
            have : isNL d = false := hn d (List.mem_of_mem_getLast? hg)
            simp [this]
        rw [c1, c2, c3]
        rfl
      · rw [hasPair_append]
        have c1 : hasPair nspB isNL x = false := hasPair_false_of_no_q hn
        have c2 : hasPair nspB isNL ('\n' :: M) = false := by
          cases hMc : M with
          | nil => rfl
          | cons m t =>
            rw [hasPair_cons₂, nspB_newline]
            have : hasPair nspB isNL M = false := ihM.noSpNL
            rw [hMc] at this
            rw [this]
            simp
        have c3 : pairJoin nspB isNL x ('\n' :: M) = false := by
          unfold pairJoin
          cases hg : x.getLast? with
          | none => rfl
          | some d =>
            have : nspB d = false := nspB_false_of_sp_false (hxl d hg)
            simp [this]
        rw [c1, c2, c3]
        rfl

theorem tabToSpace_eq_self {c : Char} (h : nspB c = false) : tabToSpace c = c := by
  unfold tabToSpace
  by_cases hc : c = '\t'
  · subst hc
    exact absurd h (by decide)
  · simp [hc]

theorem isNL_tabToSpace {c : Char} (h : isNL (tabToSpace c) = true) : isNL c = true := by
  unfold tabToSpace at h
  by_cases hc : c = '\t'
  · rw [if_pos hc] at h
    exact absurd h (by decide)
  · rwa [if_neg hc] at h

theorem nspB_tabToSpace {c : Char} (h : nspB (tabToSpace c) = true) : nspB c = true := by
  unfold tabToSpace at h
  by_cases hc : c = '\t'
  · subst hc
    decide
  · rwa [if_neg hc] at h

theorem LinesStripped_map_tab {l : List Char} (h : LinesStripped l) :
    LinesStripped (l.map tabToSpace) := by
  refine ⟨?_, ?_, ?_, ?_⟩
  · intro c hc
    rw [List.head?_map] at hc
    cases hg : l.head? with
    | none => rw [hg] at hc; simp at hc
    | some d =>
      rw [hg] at hc
      simp at hc
      subst hc
      have hd := h.headOK d hg
      rw [tabToSpace_eq_self hd]
      exact hd
  · intro c hc
    rw [List.getLast?_map] at hc
    cases hg : l.getLast? with
    | none => rw [hg] at hc; simp at hc
    | some d =>
      rw [hg] at hc
      simp at hc
      subst hc
      have hd := h.lastOK d hg
      rw [tabToSpace_eq_self hd]
      exact hd
  · rw [hasPair_map]
    exact hasPair_imp (fun c => isNL_tabToSpace) (fun c => nspB_tabToSpace) h.noNLsp
  · rw [hasPair_map]
    exact hasPair_imp (fun c => nspB_tabToSpace) (fun c => isNL_tabToSpace) h.noSpNL

theorem LinesStripped_tail {c : Char} {rest : List Char}
    (h : LinesStripped (c :: rest)) (hc : c = '\n') : LinesStripped rest := by
  subst hc
  refine ⟨?_, ?_, hasPair_tail_false h.noNLsp, hasPair_tail_false h.noSpNL⟩
  · intro d hd
    cases rest with
    | nil => simp at hd
    | cons e t =>
      simp at hd
      subst hd
      have h1 := h.noNLsp
      rw [hasPair_cons₂, isNL_newline] at h1
      simp at h1
      exact h1.1
  · intro d hd
    have hne : rest ≠ [] := by
      intro hrest
      rw [hrest] at hd
      simp at hd
    apply h.lastOK
    rw [show ('\n' :: rest) = ['\n'] ++ rest from rfl,
      List.getLast?_append_of_ne_nil ['\n'] hne]
    exact hd

theorem LinesStripped_dropWhile_sp {l : List Char} (h : LinesStripped l) :
    LinesStripped (l.dropWhile pyIsSpaceB) := by
  induction l with
  | nil => exact LinesStripped_nil
  | cons c rest ih =>
    by_cases hsp : pyIsSpaceB c = true
    · have hnsp : nspB c = false := h.headOK c rfl
      have hcnl : c = '\n' := by
        apply eq_newline_of_isNL
        cases hnl : isNL c with
        | true => rfl
        | false => exact absurd hsp (by rw [sp_false_of_nsp_nl hnsp hnl]; simp)
      rw [List.dropWhile_cons, if_pos hsp]
      exact ih (LinesStripped_tail h hcnl)
    · rw [List.dropWhile_cons, if_neg hsp]
      exact h

theorem LinesStripped_reverse {l : List Char} (h : LinesStripped l) :
    LinesStripped l.reverse := by
  refine ⟨?_, ?_, ?_, ?_⟩
  · intro c hc
    rw [List.head?_reverse] at hc
    exact h.lastOK c hc
  · intro c hc
    rw [List.getLast?_reverse] at hc
    exact h.headOK c hc
  · rw [hasPair_reverse]
    exact h.noSpNL
  · rw [hasPair_reverse]
    exact h.noNLsp

theorem LinesStripped_stripR {l : List Char} (h : LinesStripped l) :
    LinesStripped (stripR l) := by
  unfold stripR
  exact LinesStripped_reverse (LinesStripped_dropWhile_sp (LinesStripped_reverse h))

theorem LinesStripped_pyStrip {l : List Char} (h : LinesStripped l) :
    LinesStripped (pyStripL l) := by
  unfold pyStripL stripL
  exact LinesStripped_stripR (LinesStripped_dropWhile_sp h)

/-- Truncation with the `"..."` marker preserves `LinesStripped`. -/
theorem LinesStripped_take_dots {l : List Char} (h : LinesStripped l) (n : Nat) :
    LinesStripped (l.take n ++ ['.', '.', '.']) := by
  have htk : hasPair isNL nspB (l.take n) = false ∧ hasPair nspB isNL (l.take n) = false := by
    have h1 := h.noNLsp
    have h2 := h.noSpNL
    rw [← List.take_append_drop n l] at h1 h2
    exact ⟨(hasPair_append_false h1).1, (hasPair_append_false h2).1⟩
  refine ⟨?_, ?_, ?_, ?_⟩
  · intro c hc
    rw [List.head?_append] at hc
    cases hg : (l.take n).head? with
    | none =>
      rw [hg] at hc
      simp at hc
      subst hc
      decide
    | some d =>
      rw [hg] at hc
      simp at hc
      subst hc
      exact h.headOK d (head?_of_pref ( List.take_prefix n l) d hg)
  · intro c hc
    rw [List.getLast?_append_of_ne_nil _ (by simp)] at hc
    simp at hc
    subst hc
    decide
  · rw [hasPair_append, htk.1]
    have c2 : hasPair isNL nspB ['.', '.', '.'] = false := by decide
    have c3 : pairJoin isNL nspB (l.take n) ['.', '.', '.'] = false := by
      unfold pairJoin
      cases hg : (l.take n).getLast? with
      | none => rfl
      | some d => simp [show nspB '.' = false from by decide]
    rw [c2, c3]
    rfl
  · rw [hasPair_append, htk.2]
    have c2 : hasPair nspB isNL ['.', '.', '.'] = false := by decide
    have c3 : pairJoin nspB isNL (l.take n) ['.', '.', '.'] = false := by
      unfold pairJoin
      cases hg : (l.take n).getLast? with
      | none => rfl
      | some d => simp [show isNL '.' = false from by decide]
    rw [c2, c3]
    rfl

/-! ### Toolkit: the normalizer's steps on already-clean text -/

theorem map_eq_self_of {α : Type} {f : α → α} {l : List α} (h : ∀ x ∈ l, f x = x) :
    l.map f = l := by
  induction l with
  | nil => rfl
  | cons a t ih =>
    simp only [List.map_cons, h a (List.mem_cons_self _ _),
      ih (fun x hx => h x (List.mem_cons_of_mem _ hx))]

theorem normNewlines_cons_ne {c : Char} (h : c ≠ '\r') (rest : List Char) :
    normNewlines (c :: rest) = c :: normNewlines rest := by
  rw [normNewlines.eq_def]
  simp only [if_neg h]

theorem normNewlines_cr_cons_ne {d : Char} (h : d ≠ '\n') (t : List Char) :
    normNewlines ('\r' :: d :: t) = '\n' :: normNewlines (d :: t) := by
  rw [normNewlines.eq_def]
  simp [h]

/-- The output of line-ending canonicalization never contains `\r`. -/
theorem normNewlines_no_cr : ∀ (n : Nat) (l : List Char), l.length ≤ n →
    '\r' ∉ normNewlines l := by
  intro n
  induction n with
  | zero =>
    intro l hlen
    rw [List.length_eq_zero.mp (Nat.le_zero.mp hlen)]
    simp [normNewlines]
  | succ n ih =>
    intro l hlen
    cases l with
    | nil => simp [normNewlines]
    | cons c rest =>
      by_cases hc : c = '\r'
      · subst hc
        cases rest with
        | nil =>
          show '\r' ∉ ['\n']
          decide
        | cons d t =>
          by_cases hd : d = '\n'
          · subst hd
            show '\r' ∉ '\n' :: normNewlines t
            intro hmem
            rcases List.mem_cons.mp hmem with h | h
            · exact absurd h (by decide)
            · exact ih t (by simp at hlen; omega) h
          · rw [normNewlines_cr_cons_ne hd]
            intro hmem
            rcases List.mem_cons.mp hmem with h | h
            · exact absurd h (by decide)
            · exact ih (d :: t) (by simp at hlen ⊢; omega) h
      · rw [normNewlines_cons_ne hc]
        intro hmem
        rcases List.mem_cons.mp hmem with h | h
        · exact hc h.symm
        · exact ih rest (by simp at hlen; omega) h

/-- Line-ending canonicalization leaves `\r`-free text unchanged. -/
theorem normNewlines_eq_self {l : List Char} (h : ∀ c ∈ l, c ≠ '\r') :
    normNewlines l = l := by
  induction l with
  | nil => rfl
  | cons c rest ih =>
    rw [normNewlines_cons_ne (h c (List.mem_cons_self _ _)),
      ih (fun d hd => h d (List.mem_cons_of_mem _ hd))]

/-- Characters of the canonicalized text come from the input or are `\n`. -/
theorem mem_normNewlines : ∀ (n : Nat) (l : List Char), l.length ≤ n →
    ∀ c ∈ normNewlines l, c ∈ l ∨ c = '\n' := by
  intro n
  induction n with
  | zero =>
    intro l hlen
    rw [List.length_eq_zero.mp (Nat.le_zero.mp hlen)]
    simp [normNewlines]
  | succ n ih =>
    intro l hlen c hc
    cases l with
    | nil => simp [normNewlines] at hc
    | cons a rest =>
      by_cases ha : a = '\r'
      · subst ha
        cases rest with
        | nil =>
          have : c ∈ ['\n'] := hc
          simp at this
          right; exact this
        | cons d t =>
          by_cases hd : d = '\n'
          · subst hd
            have hc2 : c ∈ '\n' :: normNewlines t := hc
            rcases List.mem_cons.mp hc2 with h | h
            · right; exact h
            · rcases ih t (by simp at hlen; omega) c h with h2 | h2
              · left; simp [h2]
              · right; exact h2
          · rw [normNewlines_cr_cons_ne hd] at hc
            rcases List.mem_cons.mp hc with h | h
            · right; exact h
            · rcases ih (d :: t) (by simp at hlen ⊢; omega) c h with h2 | h2
              · left; exact List.mem_cons_of_mem _ h2
              · right; exact h2
      · rw [normNewlines_cons_ne ha] at hc
        rcases List.mem_cons.mp hc with h | h
        · left; simp [h]
        · rcases ih rest (by simp at hlen; omega) c h with h2 | h2
          · left; exact List.mem_cons_of_mem _ h2
          · right; exact h2

theorem mem_collapseNLAux {c : Char} :
    ∀ (seen : Nat) (l : List Char), c ∈ collapseNLAux seen l → c ∈ l := by
  intro seen l
  induction l generalizing seen with
  | nil => intro h; simp [collapseNLAux] at h
  | cons a rest ih =>
    intro h
    unfold collapseNLAux at h
    by_cases ha : a = '\n'
    · rw [if_pos ha] at h
      by_cases hseen : 2 ≤ seen
      · rw [if_pos hseen] at h
        exact List.mem_cons_of_mem _ (ih seen h)
      · rw [if_neg hseen] at h
        rcases List.mem_cons.mp h with h2 | h2
        · subst ha; simp [h2]
        · exact List.mem_cons_of_mem _ (ih (seen + 1) h2)
    · rw [if_neg ha] at h
      rcases List.mem_cons.mp h with h2 | h2
      · simp [h2]
      · exact List.mem_cons_of_mem _ (ih 0 h2)

theorem mem_collapseSPAux {c : Char} :
    ∀ (prev : Bool) (l : List Char), c ∈ collapseSPAux prev l → c ∈ l := by
  intro prev l
  induction l generalizing prev with
  | nil => intro h; simp [collapseSPAux] at h
  | cons a rest ih =>
    intro h
    unfold collapseSPAux at h
    by_cases ha : a = ' '
    · rw [if_pos ha] at h
      cases prev with
      | true =>
        simp only [if_pos] at h
        exact List.mem_cons_of_mem _ (ih true h)
      | false =>
        simp only [Bool.false_eq_true, if_neg] at h
        rcases List.mem_cons.mp h with h2 | h2
        · subst ha; simp [h2]
        · exact List.mem_cons_of_mem _ (ih true h2)
    · rw [if_neg ha] at h
      rcases List.mem_cons.mp h with h2 | h2
      · simp [h2]
      · exact List.mem_cons_of_mem _ (ih false h2)

theorem mem_joinNL {c : Char} : ∀ (ls : List (List Char)),
    c ∈ joinNL ls → (∃ x ∈ ls, c ∈ x) ∨ c = '\n' := by
  intro ls
  induction ls with
  | nil => intro h; simp [joinNL] at h
  | cons x rest ih =>
    intro h
    cases rest with
    | nil =>
      left
      exact ⟨x, List.mem_cons_self _ _, h⟩
    | cons y rest2 =>
      have h2 : c ∈ x ++ '\n' :: joinNL (y :: rest2) := h
      rcases List.mem_append.mp h2 with h3 | h3
      · left; exact ⟨x, List.mem_cons_self _ _, h3⟩
      · rcases List.mem_cons.mp h3 with h4 | h4
        · right; exact h4
        · rcases ih h4 with ⟨z, hz, hcz⟩ | h5
          · left; exact ⟨z, List.mem_cons_of_mem _ hz, hcz⟩
          · right; exact h5

theorem mem_map_tab {c : Char} {l : List Char} (h : c ∈ l.map tabToSpace) :
    c ∈ l ∨ c = ' ' := by
  rcases List.mem_map.mp h with ⟨d, hd, hdc⟩
  unfold tabToSpace at hdc
  by_cases hdt : d = '\t'
  · rw [if_pos hdt] at hdc
    right; exact hdc.symm
  · rw [if_neg hdt] at hdc
    left; exact hdc ▸ hd

/-! ### Toolkit: collapse steps on already-collapsed text -/

/-- The space test for the `' +'` collapse. -/
def isSP (c : Char) : Bool := c = ' '

/-- Does the text start with a newline? -/
def startsN : List Char → Bool
  | c :: _ => c = '\n'
  | [] => false

/-- Does the text start with two newlines? -/
def startsNN : List Char → Bool
  | c :: rest => (c = '\n') && startsN rest
  | [] => false

/-- Does the text start with a space? -/
def startsSP : List Char → Bool
  | c :: _ => c = ' '
  | [] => false

theorem hasTripleNL_cons₃ (a b c : Char) (rest : List Char) :
    hasTripleNL (a :: b :: c :: rest) =
      ((a = '\n' && b = '\n' && c = '\n') || hasTripleNL (b :: c :: rest)) := rfl

theorem hasTripleNL_tail {a : Char} {t : List Char}
    (h : hasTripleNL (a :: t) = false) : hasTripleNL t = false := by
  cases t with
  | nil => rfl
  | cons b t2 =>
    cases t2 with
    | nil => rfl
    | cons c t3 =>
      rw [hasTripleNL_cons₃] at h
      simp at h
      exact h.2

theorem startsNN_triple {rest : List Char} (h : startsNN rest = true) :
    hasTripleNL ('\n' :: rest) = true := by
  cases rest with
  | nil => simp [startsNN] at h
  | cons b t =>
    unfold startsNN at h
    cases t with
    | nil => simp [startsN] at h
    | cons c t2 =>
      rw [hasTripleNL_cons₃]
      simp at h
      simp [h.1, show c = '\n' from by
        have := h.2
        unfold startsN at this
        exact of_decide_eq_true this]

/-- The newline-collapse recursion is the identity on triple-free text,
provided the carried-in run state is consistent with the head. -/
theorem collapseNLAux_eq_self : ∀ (l : List Char), hasTripleNL l = false →
    (collapseNLAux 0 l = l) ∧
    (startsNN l = false → collapseNLAux 1 l = l) ∧
    (startsN l = false → collapseNLAux 2 l = l) := by
  intro l
  induction l with
  | nil => intro _; exact ⟨rfl, fun _ => rfl, fun _ => rfl⟩
  | cons c rest ih =>
    intro h3
    have ihr := ih (hasTripleNL_tail h3)
    by_cases hc : c = '\n'
    · subst hc
      have hNN : startsNN rest = false := by
        cases hNN : startsNN rest with
        | false => rfl
        | true => rw [startsNN_triple hNN] at h3; exact h3
      refine ⟨?_, ?_, ?_⟩
      · show collapseNLAux 0 ('\n' :: rest) = '\n' :: rest
        unfold collapseNLAux
        simp only [if_pos rfl]
        norm_num
        exact ihr.2.1 hNN
      · intro hnn
        show collapseNLAux 1 ('\n' :: rest) = '\n' :: rest
        unfold collapseNLAux
        simp only [if_pos rfl]
        norm_num
        apply ihr.2.2
        unfold startsNN at hnn
        simp at hnn
        exact hnn
      · intro hn
        exact absurd (by unfold startsN; simp : startsN ('\n' :: rest) = true)
          (by rw [hn]; simp)
    · refine ⟨?_, fun _ => ?_, fun _ => ?_⟩ <;>
        (unfold collapseNLAux
         simp only [if_neg hc]
         rw [ihr.1])

theorem startsSP_pair {rest : List Char} (h : startsSP rest = true) :
    hasPair isSP isSP (' ' :: rest) = true := by
  cases rest with
  | nil => simp [startsSP] at h
  | cons b t =>
    rw [hasPair_cons₂]
    have hb : b = ' ' := by simpa [startsSP] using h
    simp [isSP, hb]

/-- The space-collapse recursion is the identity on double-space-free text,
provided the carried-in state is consistent with the head. -/
theorem collapseSPAux_eq_self : ∀ (l : List Char), hasPair isSP isSP l = false →
    (collapseSPAux false l = l) ∧
    (startsSP l = false → collapseSPAux true l = l) := by
  intro l
  induction l with
  | nil => intro _; exact ⟨rfl, fun _ => rfl⟩
  | cons c rest ih =>
    intro h2
    have ihr := ih (hasPair_tail_false h2)
    by_cases hc : c = ' '
    · subst hc
      have hSP : startsSP rest = false := by
        cases hSP : startsSP rest with
        | false => rfl
        | true => rw [startsSP_pair hSP] at h2; exact h2
      refine ⟨?_, ?_⟩
      · unfold collapseSPAux
        simp only [if_pos rfl]
        norm_num
        exact ihr.2 hSP
      · intro hss
        exact absurd (by unfold startsSP; simp : startsSP (' ' :: rest) = true)
          (by rw [hss]; simp)
    · refine ⟨?_, fun _ => ?_⟩ <;>
        (unfold collapseSPAux
         simp only [if_neg hc]
         rw [ihr.1])

/-! ### Toolkit: structure of the normalizer's output -/

/-- Stage 5 of the normalizer (strip every line of the collapsed text). -/
def cc5 (l : List Char) : List Char :=
  joinNL ((splitPred isNL (collapseSP (collapseNL (normNewlines
    (l.filter keepInputChar))))).map pyStripL)

/-- Stage 7 of the normalizer (tabs replaced, whole text stripped). -/
def cc7 (l : List Char) : List Char := pyStripL ((cc5 l).map tabToSpace)

theorem cleanCore_eq (maxLen : Nat) (l : List Char) :
    cleanCore maxLen l =
      if maxLen < (cc7 l).length then (cc7 l).take maxLen ++ ['.', '.', '.']
      else cc7 l := rfl

/-- Every line of stage 5 is stripped and the whole is `LinesStripped`. -/
theorem LinesStripped_cc5 (l : List Char) : LinesStripped (cc5 l) := by
  apply LinesStripped_joinNL
  intro x hx
  rcases List.mem_map.mp hx with ⟨ch, hch, hchx⟩
  subst hchx
  refine ⟨pyStripL_idem ch, ?_⟩
  intro c hc
  exact splitPred_chunk_no_sep isNL _ ch hch c (mem_pyStripL hc)

theorem LinesStripped_cc7 (l : List Char) : LinesStripped (cc7 l) :=
  LinesStripped_pyStrip (LinesStripped_map_tab (LinesStripped_cc5 l))

theorem LinesStripped_cleanCore (maxLen : Nat) (l : List Char) :
    LinesStripped (cleanCore maxLen l) := by
  rw [cleanCore_eq]
  by_cases h : maxLen < (cc7 l).length
  · rw [if_pos h]
    exact LinesStripped_take_dots (LinesStripped_cc7 l) maxLen
  · rw [if_neg h]
    exact LinesStripped_cc7 l

/-- No tab survives the normalizer. -/
theorem cleanCore_no_tab (maxLen : Nat) (l : List Char) :
    '\t' ∉ cleanCore maxLen l := by
  have h7 : '\t' ∉ cc7 l := by
    intro h
    rcases mem_map_tab (mem_pyStripL h) with h2 | h2
    · rcases List.mem_map.mp (mem_pyStripL h) with ⟨d, _, hd⟩
      unfold tabToSpace at hd
      by_cases hdt : d = '\t'
      · rw [if_pos hdt] at hd; exact absurd hd (by decide)
      · rw [if_neg hdt] at hd; exact hdt (hd.symm ▸ rfl)
    · exact absurd h2 (by decide)
  rw [cleanCore_eq]
  by_cases h : maxLen < (cc7 l).length
  · rw [if_pos h]
    intro hmem
    rcases List.mem_append.mp hmem with h2 | h2
    · exact h7 (List.mem_of_mem_take h2)
    · simp at h2
  · rw [if_neg h]
    exact h7

/-- No carriage return survives the normalizer. -/
theorem cleanCore_no_cr (maxLen : Nat) (l : List Char) :
    '\r' ∉ cleanCore maxLen l := by
  have h7 : '\r' ∉ cc7 l := by
    intro h
    rcases mem_map_tab (mem_pyStripL h) with h2 | h2
    · rcases mem_joinNL _ h2 with ⟨x, hx, hcx⟩ | h3
      · rcases List.mem_map.mp hx with ⟨ch, hch, hchx⟩
        subst hchx
        have hin := splitPred_chunk_subset isNL _ ch hch '\r' (mem_pyStripL hcx)
        have hin2 := mem_collapseSPAux false _ hin
        have hin3 := mem_collapseNLAux 0 _ hin2
        exact normNewlines_no_cr _ _ le_rfl hin3
      · exact absurd h3 (by decide)
    · exact absurd h2 (by decide)
  rw [cleanCore_eq]
  by_cases h : maxLen < (cc7 l).length
  · rw [if_pos h]
    intro hmem
    rcases List.mem_append.mp hmem with h2 | h2
    · exact h7 (List.mem_of_mem_take h2)
    · simp at h2
  · rw [if_neg h]
    exact h7

/-- Every character of the normalizer's output is printable or whitespace. -/
theorem cleanCore_keep (maxLen : Nat) (l : List Char) :
    ∀ c ∈ cleanCore maxLen l, keepInputChar c = true := by
  have h7 : ∀ c ∈ cc7 l, keepInputChar c = true := by
    intro c h
    rcases mem_map_tab (mem_pyStripL h) with h2 | h2
    · rcases mem_joinNL _ h2 with ⟨x, hx, hcx⟩ | h3
      · rcases List.mem_map.mp hx with ⟨ch, hch, hchx⟩
        subst hchx
        have hin := splitPred_chunk_subset isNL _ ch hch c (mem_pyStripL hcx)
        have hin2 := mem_collapseSPAux false _ hin
        have hin3 := mem_collapseNLAux 0 _ hin2
        rcases mem_normNewlines _ _ le_rfl c hin3 with h4 | h4
        · exact (List.mem_filter.mp h4).2
        · subst h4; decide
      · subst h3; decide
    · subst h2; decide
  intro c hc
  rw [cleanCore_eq] at hc
  by_cases h : maxLen < (cc7 l).length
  · rw [if_pos h] at hc
    rcases List.mem_append.mp hc with h2 | h2
    · exact h7 c (List.mem_of_mem_take h2)
    · simp at h2
      subst h2; decide
  · rw [if_neg h] at hc
    exact h7 c hc

/-- The normalizer's output is globally stripped. -/
theorem cleanCore_stripped (maxLen : Nat) (l : List Char) :
    pyStripL (cleanCore maxLen l) = cleanCore maxLen l := by
  rw [cleanCore_eq]
  by_cases h : maxLen < (cc7 l).length
  · rw [if_pos h]
    rw [pyStripL_eq_self_iff]
    constructor
    · intro c hc
      rw [List.head?_append] at hc
      cases hg : ((cc7 l).take maxLen).head? with
      | none =>
        rw [hg] at hc
        simp at hc
        subst hc
        decide
      | some d =>
        rw [hg] at hc
        simp at hc
        subst hc
        have h2 : (cc7 l).head? = some d :=
          head?_of_pref ( List.take_prefix maxLen (cc7 l)) d hg
        have h3 := (pyStripL_eq_self_iff (cc7 l)).mp (by unfold cc7; exact pyStripL_idem _)
        exact h3.1 d h2
    · intro c hc
      rw [List.getLast?_append_of_ne_nil _ (by simp)] at hc
      simp at hc
      subst hc
      decide
  · rw [if_neg h]
    unfold cc7
    exact pyStripL_idem _

/-- Length bound with the truncation marker. -/
theorem cleanCore_length (maxLen : Nat) (l : List Char) :
    (cleanCore maxLen l).length ≤ maxLen + 3 := by
  rw [cleanCore_eq]
  by_cases h : maxLen < (cc7 l).length
  · rw [if_pos h]
    rw [List.length_append, List.length_take,
      show (['.', '.', '.'] : List Char).length = 3 from rfl]
    omega
  · rw [if_neg h]
    omega

/-- The truncated output is an exact `maxLen` prefix plus the marker. -/
theorem cleanCore_trunc_shape {maxLen : Nat} {l : List Char}
    (h : maxLen < (cleanCore maxLen l).length) :
    ∃ w, cleanCore maxLen l = w ++ ['.', '.', '.'] ∧ w.length = maxLen := by
  rw [cleanCore_eq] at h ⊢
  by_cases h2 : maxLen < (cc7 l).length
  · rw [if_pos h2]
    exact ⟨(cc7 l).take maxLen, rfl, by rw [List.length_take]; omega⟩
  · rw [if_neg h2] at h
    omega

/-- Conditional idempotence of the normalizer: a second pass changes
nothing when the first pass produced no double space and no triple
newline (the two artifacts that tab replacement and line stripping can
introduce). -/
theorem cleanCore_idem_of_runfree (maxLen : Nat) (x : List Char)
    (h1 : hasPair isSP isSP (cleanCore maxLen x) = false)
    (h2 : hasTripleNL (cleanCore maxLen x) = false) :
    cleanCore maxLen (cleanCore maxLen x) = cleanCore maxLen x := by
  set y := cleanCore maxLen x with hy
  have s1 : y.filter keepInputChar = y :=
    List.filter_eq_self.mpr (cleanCore_keep maxLen x)
  have s2 : normNewlines y = y :=
    normNewlines_eq_self (fun c hc hcr => cleanCore_no_cr maxLen x (hcr ▸ hc))
  have s3 : collapseNL y = y := (collapseNLAux_eq_self y h2).1
  have s4 : collapseSP y = y := (collapseSPAux_eq_self y h1).1
  have s5 : joinNL ((splitPred isNL y).map pyStripL) = y := by
    rw [map_eq_self_of
      (stripped_of_linesStripped y.length y le_rfl (LinesStripped_cleanCore maxLen x))]
    exact joinNL_splitPred_isNL y
  have s6 : y.map tabToSpace = y := by
    apply map_eq_self_of
    intro c hc
    unfold tabToSpace
    by_cases hct : c = '\t'
    · exact absurd (hct ▸ hc) (cleanCore_no_tab maxLen x)
    · rw [if_neg hct]
  have s7 : pyStripL y = y := cleanCore_stripped maxLen x
  have hcc5 : cc5 y = y := by
    unfold cc5
    rw [s1, s2, s3, s4]
    exact s5
  have hcc7 : cc7 y = y := by
    unfold cc7
    rw [hcc5, s6]
    exact s7
  show cleanCore maxLen y = y
  rw [cleanCore_eq, hcc7]
  by_cases hlen : maxLen < y.length
  · rw [if_pos hlen]
    obtain ⟨w, hw, hwlen⟩ := cleanCore_trunc_shape (hy ▸ hlen)
    rw [show y = w ++ ['.', '.', '.'] from hw]
    rw [← hwlen, List.take_left]
  · rw [if_neg hlen]

/-! ### Toolkit: structure of the bullet sanitizer's output -/

/-- Characters of a normalized line come from the line or the new marker. -/
theorem mem_markerNorm {c : Char} {line : List Char} (h : c ∈ markerNorm line) :
    c ∈ line ∨ c = '-' ∨ c = ' ' := by
  cases line with
  | nil =>
    rw [show markerNorm [] = [] from rfl] at h
    simp at h
  | cons a rest =>
    rw [show markerNorm (a :: rest) =
        (if (a = '-' ∨ a = '•' ∨ a = '*') ∧ headIsSpace rest = true then
          '-' :: ' ' :: rest.dropWhile pyIsSpaceB
        else
          let ds := (a :: rest).takeWhile Char.isDigit
          let after := (a :: rest).drop ds.length
          if ds ≠ [] ∧ dotParenSpace after = true then
            match after with
            | _ :: r => '-' :: ' ' :: r.dropWhile pyIsSpaceB
            | [] => a :: rest
          else if startsDashSpace (a :: rest) = true then a :: rest
          else '-' :: ' ' :: a :: rest) from rfl] at h
    by_cases h1 : (a = '-' ∨ a = '•' ∨ a = '*') ∧ headIsSpace rest = true
    · rw [if_pos h1] at h
      rcases List.mem_cons.mp h with h2 | h2
      · right; left; exact h2
      · rcases List.mem_cons.mp h2 with h3 | h3
        · right; right; exact h3
        · left
          exact List.mem_cons_of_mem _ ((List.dropWhile_suffix pyIsSpaceB).subset h3)
    · rw [if_neg h1] at h
      by_cases h2 : (a :: rest).takeWhile Char.isDigit ≠ [] ∧
          dotParenSpace ((a :: rest).drop ((a :: rest).takeWhile Char.isDigit).length) = true
      · rw [if_pos h2] at h
        rcases hdrop : (a :: rest).drop ((a :: rest).takeWhile Char.isDigit).length with _ | ⟨p, r⟩
        · rw [hdrop] at h
          left; exact h
        · rw [hdrop] at h
          rcases List.mem_cons.mp h with h3 | h3
          · right; left; exact h3
          · rcases List.mem_cons.mp h3 with h4 | h4
            · right; right; exact h4
            · left
              have h5 : c ∈ p :: r := List.mem_cons_of_mem _
                ((List.dropWhile_suffix pyIsSpaceB).subset h4)
              rw [← hdrop] at h5
              exact List.mem_of_mem_drop h5
      · rw [if_neg h2] at h
        by_cases h3 : startsDashSpace (a :: rest) = true
        · rw [if_pos h3] at h
          left; exact h
        · rw [if_neg h3] at h
          rcases List.mem_cons.mp h with h4 | h4
          · right; left; exact h4
          · rcases List.mem_cons.mp h4 with h5 | h5
            · right; right; exact h5
            · left; exact h5

/-- Characters of a space-join come from the words or are spaces. -/
theorem mem_joinSP {c : Char} : ∀ (ws : List (List Char)),
    c ∈ joinSP ws → (∃ w ∈ ws, c ∈ w) ∨ c = ' ' := by
  intro ws
  induction ws with
  | nil => intro h; simp [joinSP] at h
  | cons w rest ih =>
    intro h
    cases rest with
    | nil => exact Or.inl ⟨w, List.mem_cons_self _ _, h⟩
    | cons v rest2 =>
      have h2 : c ∈ w ++ ' ' :: joinSP (v :: rest2) := h
      rcases List.mem_append.mp h2 with h3 | h3
      · exact Or.inl ⟨w, List.mem_cons_self _ _, h3⟩
      · rcases List.mem_cons.mp h3 with h4 | h4
        · right; exact h4
        · rcases ih h4 with ⟨z, hz, hcz⟩ | h5
          · exact Or.inl ⟨z, List.mem_cons_of_mem _ hz, hcz⟩
          · right; exact h5

/-- Words produced by `pySplitWs` are nonempty and whitespace-free. -/
theorem pySplitWs_words (l : List Char) :
    ∀ w ∈ pySplitWs l, w ≠ [] ∧ ∀ c ∈ w, pyIsSpaceB c = false := by
  intro w hw
  unfold pySplitWs at hw
  have h1 := List.mem_filter.mp hw
  refine ⟨by simpa using h1.2, ?_⟩
  intro c hc
  exact splitPred_chunk_no_sep pyIsSpaceB l w h1.1 c hc

theorem joinSP_ne_nil {ws : List (List Char)} (hne : ws ≠ [])
    (h : ∀ w ∈ ws, w ≠ []) : joinSP ws ≠ [] := by
  cases ws with
  | nil => exact absurd rfl hne
  | cons w rest =>
    cases rest with
    | nil => exact h w (List.mem_cons_self _ _)
    | cons v rest2 =>
      show w ++ ' ' :: joinSP (v :: rest2) ≠ []
      simp

/-- The last character of a space-join of nonempty whitespace-free words
is not whitespace. -/
theorem joinSP_getLast_nosp : ∀ (ws : List (List Char)), ws ≠ [] →
    (∀ w ∈ ws, w ≠ []) → (∀ w ∈ ws, ∀ c ∈ w, pyIsSpaceB c = false) →
    ∀ c ∈ (joinSP ws).getLast?, pyIsSpaceB c = false := by
  intro ws
  induction ws with
  | nil => intro h; exact absurd rfl h
  | cons w rest ih =>
    intro _ hne hnosp c hc
    cases rest with
    | nil =>
      exact hnosp w (List.mem_cons_self _ _) c (List.mem_of_mem_getLast? hc)
    | cons v rest2 =>
      have hjoin : joinSP (w :: v :: rest2) = w ++ ' ' :: joinSP (v :: rest2) := rfl
      rw [hjoin] at hc
      have hvne : joinSP (v :: rest2) ≠ [] :=
        joinSP_ne_nil (by simp) (fun x hx => hne x (List.mem_cons_of_mem _ hx))
      rw [List.getLast?_append_of_ne_nil _ (by simp),
        show (' ' :: joinSP (v :: rest2)) = [' '] ++ joinSP (v :: rest2) from rfl,
        List.getLast?_append_of_ne_nil _ hvne] at hc
      exact ih (by simp) (fun x hx => hne x (List.mem_cons_of_mem _ hx))
        (fun x hx => hnosp x (List.mem_cons_of_mem _ hx)) c hc

/-- The last character of a newline-join inherits the chunks' trailing
characters. -/
theorem joinNL_getLast_nosp : ∀ (ls : List (List Char)),
    (∀ x ∈ ls, x ≠ []) → (∀ x ∈ ls, ∀ c ∈ x.getLast?, pyIsSpaceB c = false) →
    ∀ c ∈ (joinNL ls).getLast?, pyIsSpaceB c = false := by
  intro ls
  induction ls with
  | nil => intro _ _ c hc; simp [joinNL] at hc
  | cons x rest ih =>
    intro hne hlast c hc
    cases rest with
    | nil => exact hlast x (List.mem_cons_self _ _) c hc
    | cons y rest2 =>
      have hjoin : joinNL (x :: y :: rest2) = x ++ '\n' :: joinNL (y :: rest2) := rfl
      rw [hjoin] at hc
      have hyne : joinNL (y :: rest2) ≠ [] := by
        cases rest2 with
        | nil => exact hne y (List.mem_cons_of_mem _ (List.mem_cons_self _ _))
        | cons z r3 =>
          show y ++ '\n' :: joinNL (z :: r3) ≠ []
          simp
      rw [List.getLast?_append_of_ne_nil _ (by simp),
        show ('\n' :: joinNL (y :: rest2)) = ['\n'] ++ joinNL (y :: rest2) from rfl,
        List.getLast?_append_of_ne_nil _ hyne] at hc
      exact ih (fun z hz => hne z (List.mem_cons_of_mem _ hz))
        (fun z hz => hlast z (List.mem_cons_of_mem _ hz)) c hc

/-- Space collapse keeps the last character when it is not a space. -/
theorem collapseSPAux_getLast : ∀ (z : List Char) (prev : Bool), z ≠ [] →
    (∀ c ∈ z.getLast?, ¬ c = ' ') →
    (collapseSPAux prev z).getLast? = z.getLast? := by
  intro z
  induction z with
  | nil => intro prev h; exact absurd rfl h
  | cons c rest ih =>
    intro prev _ hlast
    cases rest with
    | nil =>
      have hc : ¬ c = ' ' := hlast c rfl
      unfold collapseSPAux
      rw [if_neg hc]
      rfl
    | cons d t =>
      have hlastz : (c :: d :: t).getLast? = (d :: t).getLast? := by
        rw [show c :: d :: t = [c] ++ (d :: t) from rfl,
          List.getLast?_append_of_ne_nil _ (by simp)]
      have hlast2 : ∀ e ∈ (d :: t).getLast?, ¬ e = ' ' := by
        intro e he
        apply hlast
        rw [hlastz]
        exact he
      have hg : ∀ pv, (collapseSPAux pv (d :: t)).getLast? = (d :: t).getLast? :=
        fun pv => ih pv (by simp) hlast2
      have hne : ∀ pv, collapseSPAux pv (d :: t) ≠ [] := by
        intro pv hnil
        have h2 := hg pv
        rw [hnil] at h2
        have h3 : (d :: t).getLast? = none := h2.symm
        rw [List.getLast?_eq_none_iff] at h3
        simp at h3
      by_cases hc : c = ' '
      · subst hc
        unfold collapseSPAux
        rw [if_pos rfl]
        cases prev with
        | true =>
          rw [if_pos rfl]
          rw [hg true, hlastz]
        | false =>
          rw [if_neg (by simp : ¬(false = true))]
          rw [show (' ' :: collapseSPAux true (d :: t)) =
            [' '] ++ collapseSPAux true (d :: t) from rfl,
            List.getLast?_append_of_ne_nil _ (hne true), hg true, hlastz]
      · unfold collapseSPAux
        rw [if_neg hc]
        rw [show (c :: collapseSPAux false (d :: t)) =
          [c] ++ collapseSPAux false (d :: t) from rfl,
          List.getLast?_append_of_ne_nil _ (hne false), hg false, hlastz]

/-- Splitting a space-join of nonempty whitespace-free words returns the
words. -/
theorem pySplitWs_joinSP : ∀ (ws : List (List Char)),
    (∀ w ∈ ws, w ≠ []) → (∀ w ∈ ws, ∀ c ∈ w, pyIsSpaceB c = false) →
    pySplitWs (joinSP ws) = ws := by
  intro ws
  induction ws with
  | nil => intro _ _; rfl
  | cons w rest ih =>
    intro hne hnosp
    cases rest with
    | nil =>
      show pySplitWs (joinSP [w]) = [w]
      unfold joinSP pySplitWs
      rw [splitPred_eq_single (hnosp w (List.mem_cons_self _ _))]
      simp [hne w (List.mem_cons_self _ _)]
    | cons v rest2 =>
      show pySplitWs (w ++ ' ' :: joinSP (v :: rest2)) = w :: v :: rest2
      unfold pySplitWs
      rw [splitPred_append_sep (hnosp w (List.mem_cons_self _ _)) (by decide)]
      rw [List.filter_cons_of_pos (by simp [hne w (List.mem_cons_self _ _)])]
      have ih2 := ih (fun x hx => hne x (List.mem_cons_of_mem _ hx))
        (fun x hx => hnosp x (List.mem_cons_of_mem _ hx))
      unfold pySplitWs at ih2
      rw [ih2]

/-- What one retained bullet's cleanup produces. -/
theorem cleanPoint_spec {q pt : List Char} (hpt : cleanPoint q = some pt)
    (hchars : ∀ c ∈ q, keepOutChar c = true ∧ isNL c = false) :
    ∃ body, pt = '-' :: ' ' :: body ∧ body ≠ [] ∧
      (pySplitWs body).length ≤ 12 ∧
      (∀ c ∈ body, keepOutChar c = true ∧ isNL c = false) ∧
      (∀ c ∈ body.getLast?, pyIsSpaceB c = false) := by
  unfold cleanPoint at hpt
  set z := pyStripL (q.drop 2) with hz
  set content := collapseSP z with hcontent
  set ws := pySplitWs content with hws
  set content2 := if 12 < ws.length then joinSP (ws.take 12) else content with hcontent2
  by_cases hc2 : content2 = []
  · rw [if_pos hc2] at hpt
    exact absurd hpt (by simp)
  · rw [if_neg hc2] at hpt
    have hpt2 : pt = '-' :: ' ' :: content2 := by
      injection hpt with h
      exact h.symm
    have hcontent_mem : ∀ c ∈ content, c ∈ q := by
      intro c hc
      exact List.mem_of_mem_drop (mem_pyStripL (mem_collapseSPAux false z hc))
    have hws_words := pySplitWs_words content
    have hmem2 : ∀ c ∈ content2, c ∈ q ∨ c = ' ' := by
      intro c hc
      rw [hcontent2] at hc
      by_cases h12 : 12 < ws.length
      · rw [if_pos h12] at hc
        rcases mem_joinSP _ hc with ⟨w, hw, hcw⟩ | hsp
        · left
          exact hcontent_mem c
            (splitPred_chunk_subset pyIsSpaceB content w
              (List.mem_filter.mp (List.mem_of_mem_take hw)).1 c hcw)
        · right; exact hsp
      · rw [if_neg h12] at hc
        left; exact hcontent_mem c hc
    refine ⟨content2, hpt2, hc2, ?_, ?_, ?_⟩
    · rw [hcontent2]
      by_cases h12 : 12 < ws.length
      · rw [if_pos h12]
        rw [pySplitWs_joinSP (ws.take 12)
          (fun w hw => (hws_words w (List.mem_of_mem_take hw)).1)
          (fun w hw => (hws_words w (List.mem_of_mem_take hw)).2)]
        rw [List.length_take]
        omega
      · rw [if_neg h12]
        rw [← hws]
        omega
    · intro c hc
      rcases hmem2 c hc with h | h
      · exact hchars c h
      · subst h; exact ⟨by decide, by decide⟩
    · rw [hcontent2]
      by_cases h12 : 12 < ws.length
      · rw [if_pos h12]
        apply joinSP_getLast_nosp (ws.take 12)
        · intro htake
          have : (ws.take 12).length = 12 := by rw [List.length_take]; omega
          rw [htake] at this
          simp at this
        · exact fun w hw => (hws_words w (List.mem_of_mem_take hw)).1
        · exact fun w hw => (hws_words w (List.mem_of_mem_take hw)).2
      · rw [if_neg h12]
        have hzne : z ≠ [] := by
          intro hznil
          apply hc2
          rw [hcontent2, if_neg h12, hcontent, hznil]
          rfl
        have hzlast : ∀ c ∈ z.getLast?, ¬ c = ' ' := by
          intro c hcz hcsp
          have := pyStripL_getLast_not (q.drop 2) c (by rw [← hz]; exact hcz)
          rw [hcsp] at this
          exact absurd this (by decide)
        show ∀ c ∈ (collapseSP z).getLast?, pyIsSpaceB c = false
        unfold collapseSP
        rw [collapseSPAux_getLast z false hzne hzlast]
        intro c hcz
        exact pyStripL_getLast_not (q.drop 2) c (by rw [← hz]; exact hcz)

/-- The markdown-stripping scan prefix of `clean_output_text`. -/
def coScan (l : List Char) : List Char :=
  let l1 := subFencesLangNl (l.length + 1) l
  let l2 := subFencesBare (l1.length + 1) l1
  let l3 := subBold (l2.length + 1) l2
  let l4 := subItalic (l3.length + 1) l3
  let l5 := subHeaders (l4.length + 1) l4
  subInlineCode (l5.length + 1) l5

/-- The stripped nonempty lines of the filtered reply. -/
def coLines (l6 : List Char) : List (List Char) :=
  ((splitPred isNL (l6.filter keepOutChar)).map pyStripL).filter (· ≠ [])

/-- The capped bullet list after marker normalization. -/
def coCapped (l6 : List Char) : List (List Char) :=
  let bullets := ((coLines l6).map markerNorm).filter startsDashSpace
  if 10 < bullets.length then bullets.take 10 else bullets

/-- The cleaned bullet points of the reply. -/
def coPts (l6 : List Char) : List (List Char) :=
  (coCapped l6).filterMap cleanPoint

theorem clean_output_text_eq (s : String) (h : ¬ s = "") :
    clean_output_text s =
      (pyStripL ((joinNL (coPts (coScan s.toList))).filter keepOutChar)).asString := by
  unfold clean_output_text coPts coCapped coLines coScan
  rw [if_neg h]

/-- Each capped bullet starts with `"- "` and carries only printable,
newline-free characters. -/
theorem coCapped_spec (l6 : List Char) :
    ∀ q ∈ coCapped l6, startsDashSpace q = true ∧
      ∀ c ∈ q, keepOutChar c = true ∧ isNL c = false := by
  intro q hq
  have hq2 : q ∈ ((coLines l6).map markerNorm).filter startsDashSpace := by
    unfold coCapped at hq
    by_cases hlen : 10 < (((coLines l6).map markerNorm).filter startsDashSpace).length
    · rw [if_pos hlen] at hq
      exact List.mem_of_mem_take hq
    · rw [if_neg hlen] at hq
      exact hq
  have hq3 := List.mem_filter.mp hq2
  refine ⟨hq3.2, ?_⟩
  rcases List.mem_map.mp hq3.1 with ⟨line, hline, hlineq⟩
  have hline2 := List.mem_filter.mp hline
  rcases List.mem_map.mp hline2.1 with ⟨ch, hch, hchline⟩
  intro c hc
  subst hlineq
  rcases mem_markerNorm hc with h | h | h
  · subst hchline
    have hcch : c ∈ ch := mem_pyStripL h
    constructor
    · have := splitPred_chunk_subset isNL _ ch hch c hcch
      exact (List.mem_filter.mp this).2
    · exact splitPred_chunk_no_sep isNL _ ch hch c hcch
  · subst h; exact ⟨by decide, by decide⟩
  · subst h; exact ⟨by decide, by decide⟩

theorem coCapped_length (l6 : List Char) : (coCapped l6).length ≤ 10 := by
  unfold coCapped
  by_cases hlen : 10 < (((coLines l6).map markerNorm).filter startsDashSpace).length
  · rw [if_pos hlen]
    rw [List.length_take]
    omega
  · rw [if_neg hlen]
    omega

/-- Shape of the cleaned bullet list: at most 10 entries, each of the form
`"- " ++ body` with a nonempty body of at most 12 words and no newline. -/
theorem coPts_spec (l6 : List Char) :
    (coPts l6).length ≤ 10 ∧
    ∀ pt ∈ coPts l6, ∃ body, pt = '-' :: ' ' :: body ∧ body ≠ [] ∧
      (pySplitWs body).length ≤ 12 ∧
      (∀ c ∈ body, keepOutChar c = true ∧ isNL c = false) ∧
      (∀ c ∈ body.getLast?, pyIsSpaceB c = false) := by
  constructor
  · exact le_trans (List.length_filterMap_le _ _) (coCapped_length l6)
  · intro pt hpt
    rcases List.mem_filterMap.mp hpt with ⟨q, hq, hqpt⟩
    exact cleanPoint_spec hqpt (coCapped_spec l6 q hq).2

/-- On nonempty bullet lists the final filter and strip do nothing. -/
theorem joinNL_coPts_clean (l6 : List Char) :
    (joinNL (coPts l6)).filter keepOutChar = joinNL (coPts l6) ∧
    pyStripL (joinNL (coPts l6)) = joinNL (coPts l6) := by
  obtain ⟨hlen, hspec⟩ := coPts_spec l6
  have hkeep : ∀ c ∈ joinNL (coPts l6), keepOutChar c = true := by
    intro c hc
    rcases mem_joinNL _ hc with ⟨pt, hpt, hcpt⟩ | h
    · obtain ⟨body, hb, _, _, hchars, _⟩ := hspec pt hpt
      subst hb
      rcases List.mem_cons.mp hcpt with h | h
      · subst h; decide
      · rcases List.mem_cons.mp h with h | h
        · subst h; decide
        · exact (hchars c h).1
    · subst h; decide
  refine ⟨List.filter_eq_self.mpr hkeep, ?_⟩
  rw [pyStripL_eq_self_iff]
  constructor
  · intro c hc
    cases hpts : coPts l6 with
    | nil => rw [hpts] at hc; simp [joinNL] at hc
    | cons p rest =>
      obtain ⟨body, hb, _, _, _, _⟩ := hspec p (by rw [hpts]; exact List.mem_cons_self _ _)
      have hphead : (joinNL (p :: rest)).head? = some '-' := by
        cases rest with
        | nil => rw [hb]; rfl
        | cons p2 r2 =>
          show (p ++ '\n' :: joinNL (p2 :: r2)).head? = some '-'
          rw [List.head?_append, hb]
          rfl
      rw [hpts, hphead] at hc
      simp at hc
      subst hc
      decide
  · intro c hc
    apply joinNL_getLast_nosp (coPts l6) ?_ ?_ c hc
    · intro x hx
      obtain ⟨body, hb, _, _, _, _⟩ := hspec x hx
      rw [hb]
      simp
    · intro x hx e he
      obtain ⟨body, hb, hbne, _, _, hlast⟩ := hspec x hx
      apply hlast
      rw [hb] at he
      rw [show ('-' :: ' ' :: body) = ['-', ' '] ++ body from rfl,
        List.getLast?_append_of_ne_nil _ hbne] at he
      exact he

/-! ### Toolkit: the quiz validator's filtering -/

/-- The string stored under a key, or `""` — total counterpart of
`d.get(k, "")` for well-typed fields. -/
def strOrEmpty : Option JsonVal → String
  | some (.str s) => s
  | _ => ""

/-- Is the field absent or a string (so that `.strip()` cannot crash)? -/
def isStrOrAbsent : Option JsonVal → Bool
  | none => true
  | some (.str _) => true
  | some _ => false

/-- A quiz item whose `q`/`answer` fields cannot crash the validator. -/
def wellTypedItem (v : JsonVal) : Bool :=
  match v with
  | .obj kvs => isStrOrAbsent (lookupKey kvs "q") && isStrOrAbsent (lookupKey kvs "answer")
  | _ => true

/-- A quiz object whose `mcq`/`short` values are lists (when present) of
well-typed items. -/
def wellTypedQuiz (kvs : List (String × JsonVal)) : Bool :=
  (match (lookupKey kvs "mcq").getD (.list []) with
    | .list xs => xs.all wellTypedItem
    | _ => false) &&
  (match (lookupKey kvs "short").getD (.list []) with
    | .list xs => xs.all wellTypedItem
    | _ => false)

/-- The `mcq` item list of a well-typed quiz object. -/
def mcqList (kvs : List (String × JsonVal)) : List JsonVal :=
  match (lookupKey kvs "mcq").getD (.list []) with
  | .list xs => xs
  | _ => []

/-- The `short` item list of a well-typed quiz object. -/
def shortList (kvs : List (String × JsonVal)) : List JsonVal :=
  match (lookupKey kvs "short").getD (.list []) with
  | .list xs => xs
  | _ => []

/-- The per-item MCQ filter as a pure function: what the loop keeps. -/
def validMCQEntry? (v : JsonVal) : Option MCQItem :=
  match v with
  | .obj kvs =>
    let question := pyStripS (strOrEmpty (lookupKey kvs "q"))
    let answer := pyStripS (strOrEmpty (lookupKey kvs "answer"))
    match (lookupKey kvs "options").getD (.list []) with
    | .list opts =>
      if question ≠ "" ∧ 2 ≤ opts.length ∧ answer ≠ "" ∧ jsonMem (.str answer) opts then
        some ⟨question, opts.take 4, answer⟩
      else none
    | _ => none
  | _ => none

/-- The per-item short-answer filter as a pure function. -/
def validShortEntry? (v : JsonVal) : Option ShortItem :=
  match v with
  | .obj kvs =>
    let question := pyStripS (strOrEmpty (lookupKey kvs "q"))
    let answer := pyStripS (strOrEmpty (lookupKey kvs "answer"))
    if question ≠ "" ∧ answer ≠ "" then some ⟨question, answer⟩ else none
  | _ => none

theorem pyGetStrStripped_ok {kvs : List (String × JsonVal)} {k : String} {s : String}
    (h : pyGetStrStripped kvs k = .ok s) : s = pyStripS (strOrEmpty (lookupKey kvs k)) := by
  unfold pyGetStrStripped at h
  cases hl : lookupKey kvs k with
  | none =>
    rw [hl] at h
    injection h with h2
    subst h2
    rfl
  | some v =>
    rw [hl] at h
    cases v with
    | str t => injection h with h2; subst h2; rfl
    | null => exact absurd h (by simp)
    | bool b => exact absurd h (by simp)
    | int n => exact absurd h (by simp)
    | list xs => exact absurd h (by simp)
    | obj o => exact absurd h (by simp)

theorem pyGetStrStripped_of_wt {kvs : List (String × JsonVal)} {k : String}
    (h : isStrOrAbsent (lookupKey kvs k) = true) :
    pyGetStrStripped kvs k = .ok (pyStripS (strOrEmpty (lookupKey kvs k))) := by
  unfold pyGetStrStripped
  cases hl : lookupKey kvs k with
  | none => rfl
  | some v =>
    rw [hl] at h
    cases v with
    | str t => rfl
    | null => simp [isStrOrAbsent] at h
    | bool b => simp [isStrOrAbsent] at h
    | int n => simp [isStrOrAbsent] at h
    | list xs => simp [isStrOrAbsent] at h
    | obj o => simp [isStrOrAbsent] at h

/-- On success, the MCQ loop body agrees with the pure filter. -/
theorem processMCQItem_ok {v : JsonVal} {o : Option MCQItem}
    (h : processMCQItem v = .ok o) : o = validMCQEntry? v := by
  cases v with
  | obj kvs =>
    simp only [processMCQItem] at h
    simp only [validMCQEntry?]
    split at h
    · exact absurd h (by simp)
    · split at h
      · exact absurd h (by simp)
      · rename_i s1 q1 heqq s2 a1 heqa
        rw [pyGetStrStripped_ok heqq, pyGetStrStripped_ok heqa] at h
        split at h
        · rename_i opts heqo
          split at h
          · rename_i hcond
            injection h with h2
            rw [← h2]
            simp [heqo, hcond]
          · rename_i hcond
            injection h with h2
            rw [← h2]
            simp [heqo, hcond]
        · rename_i heqo
          injection h with h2
          rw [← h2]
  | null => injection h with h2; exact h2.symm
  | bool b => injection h with h2; exact h2.symm
  | int n => injection h with h2; exact h2.symm
  | str s => injection h with h2; exact h2.symm
  | list xs => injection h with h2; exact h2.symm

/-- A well-typed item cannot crash the MCQ loop body. -/
theorem processMCQItem_of_wt {v : JsonVal} (h : wellTypedItem v = true) :
    processMCQItem v = .ok (validMCQEntry? v) := by
  cases v with
  | obj kvs =>
    simp only [wellTypedItem] at h
    have h2 := Bool.and_eq_true_iff.mp h
    simp only [processMCQItem, validMCQEntry?]
    rw [pyGetStrStripped_of_wt h2.1, pyGetStrStripped_of_wt h2.2]
    cases hop : (lookupKey kvs "options").getD (.list []) with
    | list opts =>
      by_cases hcond : pyStripS (strOrEmpty (lookupKey kvs "q")) ≠ "" ∧
          2 ≤ opts.length ∧ pyStripS (strOrEmpty (lookupKey kvs "answer")) ≠ "" ∧
          jsonMem (.str (pyStripS (strOrEmpty (lookupKey kvs "answer")))) opts = true
      · simp [hop, hcond]
      · simp [hop, hcond]
    | null => simp [hop]
    | bool b => simp [hop]
    | int n => simp [hop]
    | str s => simp [hop]
    | obj o2 => simp [hop]
  | null => rfl
  | bool b => rfl
  | int n => rfl
  | str s => rfl
  | list xs => rfl

/-- On success, the short-answer loop body agrees with the pure filter. -/
theorem processShortItem_ok {v : JsonVal} {o : Option ShortItem}
    (h : processShortItem v = .ok o) : o = validShortEntry? v := by
  cases v with
  | obj kvs =>
    simp only [processShortItem] at h
    simp only [validShortEntry?]
    split at h
    · exact absurd h (by simp)
    · split at h
      · exact absurd h (by simp)
      · rename_i s1 q1 heqq s2 a1 heqa
        rw [pyGetStrStripped_ok heqq, pyGetStrStripped_ok heqa] at h
        split at h
        · rename_i hcond
          injection h with h2
          rw [← h2]
          simp [hcond]
        · rename_i hcond
          injection h with h2
          rw [← h2]
          simp [hcond]
  | null => injection h with h2; exact h2.symm
  | bool b => injection h with h2; exact h2.symm
  | int n => injection h with h2; exact h2.symm
  | str s => injection h with h2; exact h2.symm
  | list xs => injection h with h2; exact h2.symm

/-- A well-typed item cannot crash the short-answer loop body. -/
theorem processShortItem_of_wt {v : JsonVal} (h : wellTypedItem v = true) :
    processShortItem v = .ok (validShortEntry? v) := by
  cases v with
  | obj kvs =>
    simp only [wellTypedItem] at h
    have h2 := Bool.and_eq_true_iff.mp h
    simp only [processShortItem, validShortEntry?]
    rw [pyGetStrStripped_of_wt h2.1, pyGetStrStripped_of_wt h2.2]
    by_cases hcond : pyStripS (strOrEmpty (lookupKey kvs "q")) ≠ "" ∧
        pyStripS (strOrEmpty (lookupKey kvs "answer")) ≠ ""
    · simp [hcond]
    · simp [hcond]
  | null => rfl
  | bool b => rfl
  | int n => rfl
  | str s => rfl
  | list xs => rfl

/-- Successful collection is exactly `filterMap` of the pure filter. -/
theorem collectItems_ok {α : Type} {f : JsonVal → Except PyErr (Option α)}
    {g : JsonVal → Option α}
    (hfg : ∀ v o, f v = .ok o → o = g v) :
    ∀ {xs : List JsonVal} {L : List α},
      collectItems f xs = .ok L → L = xs.filterMap g := by
  intro xs
  induction xs with
  | nil =>
    intro L h
    injection h with h2
    subst h2
    rfl
  | cons v rest ih =>
    intro L h
    unfold collectItems at h
    cases hv : f v with
    | error e => rw [hv] at h; exact absurd h (by simp)
    | ok o =>
      rw [hv] at h
      have hg := hfg v o hv
      cases o with
      | some b =>
        cases hrest : collectItems f rest with
        | error e => rw [hrest] at h; exact absurd h (by simp)
        | ok bs =>
          rw [hrest] at h
          injection h with h2
          subst h2
          rw [List.filterMap_cons, ← hg, ih hrest]
      | none =>
        rw [List.filterMap_cons, ← hg]
        exact ih h

/-- Well-typed items collect without crashing. -/
theorem collectItems_of_wt {α : Type} {f : JsonVal → Except PyErr (Option α)}
    {g : JsonVal → Option α}
    (hfg : ∀ v, wellTypedItem v = true → f v = .ok (g v)) :
    ∀ {xs : List JsonVal}, (∀ v ∈ xs, wellTypedItem v = true) →
      collectItems f xs = .ok (xs.filterMap g) := by
  intro xs
  induction xs with
  | nil => intro _; rfl
  | cons v rest ih =>
    intro hwt
    unfold collectItems
    rw [hfg v (hwt v (List.mem_cons_self _ _))]
    cases hg : g v with
    | some b =>
      rw [ih (fun w hw => hwt w (List.mem_cons_of_mem _ hw))]
      rw [List.filterMap_cons, hg]
    | none =>
      rw [ih (fun w hw => hwt w (List.mem_cons_of_mem _ hw))]
      rw [List.filterMap_cons, hg]

/-- What the validator computes on a well-typed quiz object, in terms of
the pure per-item filters. -/
theorem validate_quiz_wt (kvs : List (String × JsonVal)) (hwt : wellTypedQuiz kvs = true) :
    validate_quiz (.obj kvs) =
      (if ((mcqList kvs).filterMap validMCQEntry?).length < 3 then
        .error (.runtimeError
          s!"Quiz incomplete: Expected at least 3 MCQs, got {((mcqList kvs).filterMap validMCQEntry?).length}.")
      else if ((shortList kvs).filterMap validShortEntry?).length < 2 then
        .error (.runtimeError
          s!"Quiz incomplete: Expected at least 2 short-answer questions, got {((shortList kvs).filterMap validShortEntry?).length}.")
      else .ok ⟨((mcqList kvs).filterMap validMCQEntry?).take 3,
        ((shortList kvs).filterMap validShortEntry?).take 2⟩) := by
  have hand := Bool.and_eq_true_iff.mp hwt
  obtain ⟨hm, hs⟩ := hand
  cases hmv : (lookupKey kvs "mcq").getD (.list []) with
  | list xs =>
    cases hsv : (lookupKey kvs "short").getD (.list []) with
    | list ys =>
      rw [hmv] at hm
      rw [hsv] at hs
      simp at hm hs
      have hml : mcqList kvs = xs := by simp [mcqList, hmv]
      have hsl : shortList kvs = ys := by simp [shortList, hsv]
      have h1 : pyIterList ((lookupKey kvs "mcq").getD (.list [])) = .ok xs := by
        rw [hmv]; rfl
      have h2 : collectItems processMCQItem xs = .ok (xs.filterMap validMCQEntry?) :=
        collectItems_of_wt (fun v hv => processMCQItem_of_wt hv) hm
      have h3 : pyIterList ((lookupKey kvs "short").getD (.list [])) = .ok ys := by
        rw [hsv]; rfl
      have h4 : collectItems processShortItem ys = .ok (ys.filterMap validShortEntry?) :=
        collectItems_of_wt (fun v hv => processShortItem_of_wt hv) hs
      simp only [validate_quiz, h1, h2, h3, h4, hml, hsl]
    | null => rw [hsv] at hs; simp at hs
    | bool b => rw [hsv] at hs; simp at hs
    | int n => rw [hsv] at hs; simp at hs
    | str s => rw [hsv] at hs; simp at hs
    | obj o => rw [hsv] at hs; simp at hs
  | null => rw [hmv] at hm; simp at hm
  | bool b => rw [hmv] at hm; simp at hm
  | int n => rw [hmv] at hm; simp at hm
  | str s => rw [hmv] at hm; simp at hm
  | obj o => rw [hmv] at hm; simp at hm

/-- A successful validation's MCQs are the first three survivors of the
pure filter over some iterated item list. -/
theorem validate_quiz_ok_mcq {quiz : JsonVal} {v : ValidQuiz}
    (h : validate_quiz quiz = .ok v) :
    ∃ xs : List JsonVal, v.mcq = (xs.filterMap validMCQEntry?).take 3 := by
  cases quiz with
  | obj kvs =>
    simp only [validate_quiz] at h
    split at h
    · exact absurd h (by simp)
    · rename_i s1 mitems heq1
      split at h
      · exact absurd h (by simp)
      · rename_i s2 validMcq heq2
        split at h
        · exact absurd h (by simp)
        · rename_i s3 sitems heq3
          split at h
          · exact absurd h (by simp)
          · rename_i s4 validShort heq4
            split at h
            · exact absurd h (by simp)
            · split at h
              · exact absurd h (by simp)
              · injection h with h2
                refine ⟨mitems, ?_⟩
                rw [← h2]
                show validMcq.take 3 = _
                rw [collectItems_ok (fun a b hab => processMCQItem_ok hab) heq2]
  | null => exact absurd h (by simp [validate_quiz])
  | bool b => exact absurd h (by simp [validate_quiz])
  | int n => exact absurd h (by simp [validate_quiz])
  | str s => exact absurd h (by simp [validate_quiz])
  | list xs => exact absurd h (by simp [validate_quiz])

/-- What survival of the pure MCQ filter says about the retained item. -/
theorem validMCQEntry?_spec {src : JsonVal} {it : MCQItem}
    (h : validMCQEntry? src = some it) :
    ∃ opts : List JsonVal, it.options = opts.take 4 ∧ 2 ≤ opts.length ∧
      jsonMem (.str it.answer) opts = true := by
  cases src with
  | obj kvs =>
    simp only [validMCQEntry?] at h
    split at h
    · rename_i opts heqo
      split at h
      · rename_i hcond
        injection h with h2
        refine ⟨opts, ?_, hcond.2.1, ?_⟩
        · rw [← h2]
        · rw [← h2]
          exact hcond.2.2.2
      · exact absurd h (by simp)
    · exact absurd h (by simp)
  | null => exact absurd h (by simp [validMCQEntry?])
  | bool b => exact absurd h (by simp [validMCQEntry?])
  | int n => exact absurd h (by simp [validMCQEntry?])
  | str s => exact absurd h (by simp [validMCQEntry?])
  | list xs => exact absurd h (by simp [validMCQEntry?])

/-- On nonempty input the source's strategy cascade coincides with the
spec's four-strategy chain, including the terminal error's components. -/
theorem extract_json_safely_eq_recover_spec (t : String) (h : ¬ t = "") :
    extract_json_safely t = recover_spec t := by
  unfold extract_json_safely recover_spec
  rw [if_neg h]
  simp only [recoverStrategy1, recoverStrategy2, recoverStrategy3, recoverStrategy4]
  cases h1 : json_loads (clean_json_output t) with
  | ok v => simp [*, Except.toOption]
  | error e1 =>
    simp only [h1, Except.toOption]
    cases h2 : braceSpan? (clean_json_output t).toList with
    | some sp =>
      simp only [h2, Option.bind_some]
      cases h3 : json_loads sp.asString with
      | ok v => simp [*, Except.toOption]
      | error e3 =>
        simp only [h3, Except.toOption]
        unfold tryStrategy3
        cases h4 : balancedSpan? (clean_json_output t).toList with
        | some sp2 =>
          simp only [h4, Option.bind_some]
          cases h5 : json_loads sp2.asString with
          | ok v => simp [*, Except.toOption]
          | error e5 =>
            simp only [h5, Except.toOption]
            unfold tryStrategy4
            cases h6 : json_loads (repair_json (clean_json_output t)) with
            | ok v => simp [*, Except.toOption]
            | error e6 => simp [*, Except.toOption]
        | none =>
          simp only [h4, Option.bind_none]
          unfold tryStrategy4
          cases h6 : json_loads (repair_json (clean_json_output t)) with
          | ok v => simp [*, Except.toOption]
          | error e6 => simp [*, Except.toOption]
    | none =>
      simp only [h2, Option.bind_none]
      unfold tryStrategy3
      cases h4 : balancedSpan? (clean_json_output t).toList with
      | some sp2 =>
        simp only [h4, Option.bind_some]
        cases h5 : json_loads sp2.asString with
        | ok v => simp [*, Except.toOption]
        | error e5 =>
          simp only [h5, Except.toOption]
          unfold tryStrategy4
          cases h6 : json_loads (repair_json (clean_json_output t)) with
          | ok v => simp [*, Except.toOption]
          | error e6 => simp [*, Except.toOption]
      | none =>
        simp only [h4, Option.bind_none]
        unfold tryStrategy4
        cases h6 : json_loads (repair_json (clean_json_output t)) with
        | ok v => simp [*, Except.toOption]
        | error e6 => simp [*, Except.toOption]

/-! ### Claim theorems -/

/-- Builder for a concrete MCQ item object. -/
def mkMCQ (q : String) (opts : List String) (a : String) : JsonVal :=
  .obj [("q", .str q), ("options", .list (opts.map .str)), ("answer", .str a)]

/-- Builder for a concrete short-answer item object. -/
def mkShort (q a : String) : JsonVal :=
  .obj [("q", .str q), ("answer", .str a)]

/-- A well-typed quiz object with one non-dict entry, three valid MCQs and
two valid short answers. -/
def C1kvs : List (String × JsonVal) :=
  [("mcq", .list [mkMCQ "Q1" ["a", "b", "c", "d"] "a", .str "junk",
    mkMCQ "Q2" ["a", "b"] "b", mkMCQ "Q3" ["x", "y"] "x"]),
   ("short", .list [mkShort "S1" "A1", mkShort "S2" "A2"])]

/-- A quiz whose first MCQ has five options with the answer equal to the
fifth, plus enough filler to validate. -/
def C2kvs : List (String × JsonVal) :=
  [("mcq", .list [mkMCQ "Q1" ["a", "b", "c", "d", "e"] "e",
    mkMCQ "Q2" ["a", "b"] "a", mkMCQ "Q3" ["x", "y"] "x"]),
   ("short", .list [mkShort "S1" "A1", mkShort "S2" "A2"])]

/-- C1 (counterexample): on the quiz object `{"mcq": [{"q": 1}], "short": []}`
the validator does not fail with the `SchemaViolation` (`RuntimeError`) the
claim prescribes for fewer than 3 valid MCQs — the item's integer `q` field
makes `.strip()` raise `AttributeError` before any filtering verdict. -/
theorem C1_counterexample :
    validate_quiz (.obj [("mcq", .list [.obj [("q", .int 1)]]), ("short", .list [])]) =
      .error .attributeError :=
  rfl

/-- C1 (amended): for every well-typed quiz object (its `mcq`/`short`
values lists when present, each dict item's `q`/`answer` fields strings
when present): if at least 3 valid MCQ entries and at least 2 valid
short-answer entries survive the per-item filtering, the validator returns
exactly the first 3 valid MCQs and the first 2 valid short answers in
order; with fewer valid MCQs it fails with the MCQ `RuntimeError`, and with
enough MCQs but fewer than 2 valid short answers it fails with the
short-answer `RuntimeError`. -/
theorem C1_amended (kvs : List (String × JsonVal)) (hwt : wellTypedQuiz kvs = true) :
    (3 ≤ ((mcqList kvs).filterMap validMCQEntry?).length →
      2 ≤ ((shortList kvs).filterMap validShortEntry?).length →
      validate_quiz (.obj kvs) =
        .ok ⟨((mcqList kvs).filterMap validMCQEntry?).take 3,
          ((shortList kvs).filterMap validShortEntry?).take 2⟩) ∧
    (((mcqList kvs).filterMap validMCQEntry?).length < 3 →
      validate_quiz (.obj kvs) = .error (.runtimeError
        s!"Quiz incomplete: Expected at least 3 MCQs, got {((mcqList kvs).filterMap validMCQEntry?).length}.")) ∧
    (3 ≤ ((mcqList kvs).filterMap validMCQEntry?).length →
      ((shortList kvs).filterMap validShortEntry?).length < 2 →
      validate_quiz (.obj kvs) = .error (.runtimeError
        s!"Quiz incomplete: Expected at least 2 short-answer questions, got {((shortList kvs).filterMap validShortEntry?).length}.")) := by
  have hvq := validate_quiz_wt kvs hwt
  refine ⟨?_, ?_, ?_⟩
  · intro h3 h2
    rw [hvq, if_neg (by omega), if_neg (by omega)]
  · intro h3
    rw [hvq, if_pos h3]
  · intro h3 h2
    rw [hvq, if_neg (by omega), if_pos h2]

/-- C1 (witness): the amended statement applied to a concrete well-typed
quiz with three valid MCQs (one junk entry skipped) and two shorts. -/
theorem C1_witness :
    validate_quiz (.obj C1kvs) =
      .ok ⟨((mcqList C1kvs).filterMap validMCQEntry?).take 3,
        ((shortList C1kvs).filterMap validShortEntry?).take 2⟩ :=
  (C1_amended C1kvs (by decide)).1 (by decide) (by decide)

/-- C2 (counterexample): the validator accepts an MCQ whose answer is the
fifth option; the returned item keeps only the first four options, so its
answer is not among its own options, contradicting the claim. -/
theorem C2_counterexample :
    validate_quiz (.obj C2kvs) =
      .ok ⟨[⟨"Q1", [.str "a", .str "b", .str "c", .str "d"], "e"⟩,
            ⟨"Q2", [.str "a", .str "b"], "a"⟩,
            ⟨"Q3", [.str "x", .str "y"], "x"⟩],
           [⟨"S1", "A1"⟩, ⟨"S2", "A2"⟩]⟩ ∧
    jsonMem (.str "e") [.str "a", .str "b", .str "c", .str "d"] = false :=
  ⟨rfl, by decide⟩

/-- C2 (amended): every MCQ item of a successfully validated quiz keeps at
most its first 4 options, and its answer equals one element of the options
list as supplied (checked before truncation): the answer is among the
retained options unless the item was supplied with more than 4 options, in
which case exactly 4 options are retained. -/
theorem C2_amended (quiz : JsonVal) (v : ValidQuiz) (h : validate_quiz quiz = .ok v) :
    ∀ it ∈ v.mcq, it.options.length ≤ 4 ∧
      (jsonMem (.str it.answer) it.options = true ∨ it.options.length = 4) := by
  intro it hit
  obtain ⟨xs, hxs⟩ := validate_quiz_ok_mcq h
  rw [hxs] at hit
  rcases List.mem_filterMap.mp (List.mem_of_mem_take hit) with ⟨src, _, hsome⟩
  obtain ⟨opts, hops, hlen2, hmem⟩ := validMCQEntry?_spec hsome
  constructor
  · rw [hops, List.length_take]
    omega
  · by_cases h4 : opts.length ≤ 4
    · left
      rw [hops, List.take_of_length_le h4]
      exact hmem
    · right
      rw [hops, List.length_take]
      omega

/-- C2 (witness): the amended statement applied to a concrete validated
quiz and its second MCQ item. -/
theorem C2_witness :
    (MCQItem.mk "Q2" [.str "a", .str "b"] "a").options.length ≤ 4 ∧
    (jsonMem (.str (MCQItem.mk "Q2" [.str "a", .str "b"] "a").answer)
        (MCQItem.mk "Q2" [.str "a", .str "b"] "a").options = true ∨
      (MCQItem.mk "Q2" [.str "a", .str "b"] "a").options.length = 4) :=
  C2_amended (.obj C2kvs)
    ⟨[⟨"Q1", [.str "a", .str "b", .str "c", .str "d"], "e"⟩,
      ⟨"Q2", [.str "a", .str "b"], "a"⟩,
      ⟨"Q3", [.str "x", .str "y"], "x"⟩],
     [⟨"S1", "A1"⟩, ⟨"S2", "A2"⟩]⟩ rfl
    (MCQItem.mk "Q2" [.str "a", .str "b"] "a")
    (List.mem_cons_of_mem _ (List.mem_cons_self _ _))

/-- A list not containing a value reports `contains = false`. -/
theorem contains_eq_false_of_not_mem {l : List Char} {c : Char} (h : c ∉ l) :
    l.contains c = false := by
  cases hc : l.contains c with
  | false => rfl
  | true => exact absurd (List.mem_of_elem_eq_true hc) h

/-- C3 (counterexample): on the empty raw text the engine raises
"Empty response from LLM." without attempting any strategy, although the
four-strategy contract would succeed — strategy 4 repairs the empty string
to `\x7b\x7d`, which parses to the empty object. -/
theorem C3_counterexample :
    extract_json_safely "" = .error (.runtimeError "Empty response from LLM.") ∧
    recover_spec "" = .ok (.obj []) :=
  ⟨rfl, rfl⟩

/-- C3 (amended): for every non-empty raw text the recovery engine follows
the claimed contract exactly: it equals the spec-side `recover_spec`, which
runs the four strategies (direct parse of the sanitized text; first
brace-to-last-brace span; brace-balanced scan; heuristic repair then parse)
in order, returns the first success, and otherwise fails carrying the final
parser error and the first 500 characters of the raw text.  The empty raw
text is instead rejected up front (see the counterexample). -/
theorem C3_amended (t : String) (h : ¬ t = "") :
    extract_json_safely t = recover_spec t :=
  extract_json_safely_eq_recover_spec t h

/-- C3 (witness): the amended statement at a concrete non-empty input. -/
theorem C3_witness :
    extract_json_safely "\x7b\"a\": 1\x7d" = recover_spec "\x7b\"a\": 1\x7d" :=
  C3_amended "\x7b\"a\": 1\x7d" (by decide)

/-- C4 (counterexample): the normalizer is not idempotent.  On `"a\t\tb"`
one application gives `"a  b"` (tabs become spaces after the
space-collapsing step has already run), and a second application collapses
the double space to `"a b"` — the lengths 4 and 3 show the two results
differ. -/
theorem C4_counterexample :
    cleanCore 10000 "a\t\tb".toList = "a  b".toList ∧
    cleanCore 10000 (cleanCore 10000 "a\t\tb".toList) = "a b".toList ∧
    (cleanCore 10000 "a\t\tb".toList).length = 4 ∧
    (cleanCore 10000 (cleanCore 10000 "a\t\tb".toList)).length = 3 :=
  ⟨by decide, by decide, by decide, by decide⟩

/-- C4 (amended): the normalizer is idempotent on every input whose
normalized form is free of double spaces and of triple newlines (tab runs
and whitespace-only lines are the only sources of such runs in the
output; when they are absent, a second application is the identity). -/
theorem C4_amended (maxLen : Nat) (x : List Char)
    (h1 : hasPair isSP isSP (cleanCore maxLen x) = false)
    (h2 : hasTripleNL (cleanCore maxLen x) = false) :
    cleanCore maxLen (cleanCore maxLen x) = cleanCore maxLen x :=
  cleanCore_idem_of_runfree maxLen x h1 h2

/-- C4 (witness): the amended statement at a concrete run-free input. -/
theorem C4_witness :
    cleanCore 10000 (cleanCore 10000 "hello   world\r\n\n\n\ntab\there".toList) =
      cleanCore 10000 "hello   world\r\n\n\n\ntab\there".toList :=
  C4_amended 10000 "hello   world\r\n\n\n\ntab\there".toList (by decide) (by decide)

/-- C5 (counterexample): the normalizer's output can contain a run of two
spaces and a run of four newlines: on `"a\t\tb\n\n \n\na"` it returns
`"a  b\n\n\n\na"` (the tab replacement runs after space collapsing, and
per-line stripping of a whitespace-only line merges newline runs after the
newline collapsing has already run). -/
theorem C5_counterexample :
    cleanCore 10000 "a\t\tb\n\n \n\na".toList = "a  b\n\n\n\na".toList ∧
    hasPair isSP isSP (cleanCore 10000 "a\t\tb\n\n \n\na".toList) = true ∧
    hasTripleNL (cleanCore 10000 "a\t\tb\n\n \n\na".toList) = true :=
  ⟨by decide, by decide, by decide⟩

/-- C5 (amended): of the four claimed safety clauses, the tab-freeness and
the length bound hold for every input and maximum length: the output never
contains a tab character and has length at most `maxLen + 3` (three extra
characters for the `"..."` truncation marker).  The no-2-space and
no-3-newline clauses are refuted by the counterexample. -/
theorem C5_amended (maxLen : Nat) (x : List Char) :
    (cleanCore maxLen x).contains '\t' = false ∧
    (cleanCore maxLen x).length ≤ maxLen + 3 :=
  ⟨contains_eq_false_of_not_mem (cleanCore_no_tab maxLen x),
   cleanCore_length maxLen x⟩

/-- C6 (code bug): the recovery engine's contract
(`recover_json(sanitized_text) -> object`) promises a JSON object, but on
the raw text `"3"` strategy 1 parses the bare number and the engine returns
the integer 3 — not a key-value mapping — which the downstream validator
then treats as a dict. -/
theorem C6_theorem : extract_json_safely "3" = .ok (.int 3) := rfl

/-- Round trip: the character list of `asString` is the list itself. -/
theorem toList_asString (l : List Char) : (l.asString).toList = l := rfl

/-- Strings with equal character lists are equal. -/
theorem string_eq_of_toList {s t : String} (h : s.toList = t.toList) : s = t := by
  cases s with
  | mk d =>
    cases t with
    | mk e =>
      have hde : d = e := h
      rw [hde]

/-- C7: for every oracle standing in for the backend call (so no network
request influences the result), a whitespace-only input with a non-empty
API key short-circuits: the quiz pipeline returns the empty valid quiz and
the simplification pipeline returns the empty string, with no error; an
empty API key instead raises the respective `ValueError`. -/
theorem C7_theorem (f g : String → String → Except PyErr String)
    (key text : String) (hkey : ¬ key = "") (htext : pyStripS text = "") :
    generate_quiz f text key = .ok ⟨[], []⟩ ∧
    simplify_text g text key = .ok "" ∧
    generate_quiz f text "" = .error (.valueError "API key required.") ∧
    simplify_text g text "" = .error (.valueError "Gemini API key is required.") := by
  refine ⟨?_, ?_, ?_, ?_⟩
  · unfold generate_quiz
    rw [if_neg hkey, if_pos (Or.inr htext)]
  · unfold simplify_text
    rw [if_neg hkey, if_pos (Or.inr htext)]
  · unfold generate_quiz
    rw [if_pos rfl]
  · unfold simplify_text
    rw [if_pos rfl]

/-- C7 (witness): the statement at a concrete whitespace-only text, a
concrete key, and an oracle that would fail if it were ever consulted. -/
theorem C7_witness :
    generate_quiz (fun _ _ => .error (.runtimeError "net")) "  \n " "k" = .ok ⟨[], []⟩ ∧
    simplify_text (fun _ _ => .error (.runtimeError "net")) "  \n " "k" = .ok "" ∧
    generate_quiz (fun _ _ => .error (.runtimeError "net")) "  \n " "" =
      .error (.valueError "API key required.") ∧
    simplify_text (fun _ _ => .error (.runtimeError "net")) "  \n " "" =
      .error (.valueError "Gemini API key is required.") :=
  C7_theorem (fun _ _ => .error (.runtimeError "net"))
    (fun _ _ => .error (.runtimeError "net")) "k" "  \n " (by decide) (by decide)

/-- C8 (counterexample): the output `"- a - b - c\n- d - e"` has only 2
canonical bullet lines, yet the pipeline accepts it: the check counts
occurrences of the substring `'- '` (here 5), not bullet lines. It is also
a fixed point of the output cleaner, so it is a reachable cleaned output. -/
theorem C8_counterexample :
    clean_output_text "- a - b - c\n- d - e" = "- a - b - c\n- d - e" ∧
    validate_simplified "- a - b - c\n- d - e" = .ok "- a - b - c\n- d - e" ∧
    ((splitPred isNL ("- a - b - c\n- d - e").toList).filter startsDashSpace).length = 2 ∧
    countDashSpace ("- a - b - c\n- d - e").toList = 5 :=
  ⟨rfl, rfl, by decide, by decide⟩

/-- C8 (amended): the cleaned output is returned unchanged exactly when it
strips to at least 10 characters and contains at least 5 occurrences of
the substring `'- '` (not 5 bullet lines); otherwise the pipeline raises
the too-short `RuntimeError` (when empty or stripping below 10 characters)
or the invalid-format `RuntimeError` carrying the substring count. -/
theorem C8_amended (out : String) :
    (validate_simplified out = .ok out ↔
      (10 ≤ (pyStripS out).length ∧ 5 ≤ countDashSpace out.toList)) ∧
    ((out = "" ∨ (pyStripS out).length < 10) →
      validate_simplified out =
        .error (.runtimeError "Simplified text is too short or empty.")) ∧
    (¬ (out = "" ∨ (pyStripS out).length < 10) →
      countDashSpace out.toList < 5 →
      validate_simplified out = .error (.runtimeError
        s!"Invalid output format. Expected bullet points, got {countDashSpace out.toList}.")) := by
  refine ⟨⟨?_, ?_⟩, ?_, ?_⟩
  · intro h
    simp only [validate_simplified] at h
    by_cases h1 : out = "" ∨ (pyStripS out).length < 10
    · rw [if_pos h1] at h
      exact absurd h (by simp)
    · rw [if_neg h1] at h
      by_cases h2 : countDashSpace out.toList < 5
      · rw [if_pos h2] at h
        exact absurd h (by simp)
      · push_neg at h1 h2
        exact ⟨h1.2, h2⟩
  · rintro ⟨h1, h2⟩
    simp only [validate_simplified]
    have hne : ¬ (out = "" ∨ (pyStripS out).length < 10) := by
      rintro (he | hl)
      · subst he
        exact absurd h1 (by decide)
      · omega
    rw [if_neg hne, if_neg (by omega)]
  · intro h1
    simp only [validate_simplified]
    rw [if_pos h1]
  · intro h1 h2
    simp only [validate_simplified]
    rw [if_neg h1, if_pos h2]

/-- C8 (witness): the amended statement at three concrete outputs — one
accepted, one too short, one long enough but with no bullet markers. -/
theorem C8_witness :
    validate_simplified "- aa\n- bb\n- cc\n- dd\n- ee" =
      .ok "- aa\n- bb\n- cc\n- dd\n- ee" ∧
    validate_simplified "short" =
      .error (.runtimeError "Simplified text is too short or empty.") ∧
    validate_simplified "no bullet marks here" =
      .error (.runtimeError "Invalid output format. Expected bullet points, got 0.") :=
  ⟨(C8_amended "- aa\n- bb\n- cc\n- dd\n- ee").1.mpr ⟨by decide, by decide⟩,
   (C8_amended "short").2.1 (by decide),
   (C8_amended "no bullet marks here").2.2 (by decide) (by decide)⟩

/-- C9: the output sanitizer yields either the empty string or at most 10
lines, each of canonical form `"- " ++ body` with at most 12 words in the
body; the four marker styles and the marker-free line all canonicalize to
`"- foo bar"`, and with fewer than 10 bullets nothing is padded (a
two-bullet input is returned with exactly its two bullets). -/
theorem C9_theorem :
    (∀ t : String, clean_output_text t = "" ∨
      ((splitPred isNL (clean_output_text t).toList).length ≤ 10 ∧
       ∀ ln ∈ splitPred isNL (clean_output_text t).toList,
         ∃ body, ln = '-' :: ' ' :: body ∧ (pySplitWs body).length ≤ 12)) ∧
    clean_output_text "1. foo bar" = "- foo bar" ∧
    clean_output_text "* foo bar" = "- foo bar" ∧
    clean_output_text "• foo bar" = "- foo bar" ∧
    clean_output_text "foo bar" = "- foo bar" ∧
    clean_output_text "- one\n- two" = "- one\n- two" := by
  refine ⟨?_, rfl, rfl, rfl, rfl, rfl⟩
  intro t
  by_cases ht : t = ""
  · left
    rw [ht]
    rfl
  · obtain ⟨hfil, hstr⟩ := joinNL_coPts_clean (coScan t.toList)
    have htl : (clean_output_text t).toList = joinNL (coPts (coScan t.toList)) := by
      rw [clean_output_text_eq t ht, toList_asString, hfil, hstr]
    cases hpts : coPts (coScan t.toList) with
    | nil =>
      left
      rw [hpts] at htl
      exact string_eq_of_toList htl
    | cons p rest =>
      right
      rw [htl]
      have hnl : ∀ x ∈ coPts (coScan t.toList), ∀ c ∈ x, isNL c = false := by
        intro x hx c hc
        obtain ⟨body, hb, _, _, hchars, _⟩ := (coPts_spec (coScan t.toList)).2 x hx
        subst hb
        rcases List.mem_cons.mp hc with h | h
        · subst h
          decide
        · rcases List.mem_cons.mp h with h | h
          · subst h
            decide
          · exact (hchars c h).2
      rw [splitPred_isNL_joinNL _ (by rw [hpts]; exact List.cons_ne_nil _ _) hnl]
      refine ⟨(coPts_spec (coScan t.toList)).1, ?_⟩
      intro ln hln
      obtain ⟨body, hb, _, hw, _, _⟩ := (coPts_spec (coScan t.toList)).2 ln hln
      exact ⟨body, hb, hw⟩

/-- C9 (witness): the universal part applied to the concrete reply
"alpha beta\ngamma delta" and its first cleaned line. -/
theorem C9_witness :
    ∃ body, ('-' :: ' ' :: "alpha beta".toList) = '-' :: ' ' :: body ∧
      (pySplitWs body).length ≤ 12 := by
  rcases C9_theorem.1 "alpha beta\ngamma delta" with h | h
  · exact absurd h (by decide)
  · exact h.2 ('-' :: ' ' :: "alpha beta".toList) (by decide)

/-- C10: the missing-key check precedes the empty-input short-circuit: for
every text (empty, whitespace-only or not) and every oracle, an empty API
key makes the quiz pipeline raise `ValueError "API key required."` and the
simplification pipeline raise `ValueError "Gemini API key is required."`,
never the empty valid result. -/
theorem C10_theorem (f g : String → String → Except PyErr String) (text : String) :
    generate_quiz f text "" = .error (.valueError "API key required.") ∧
    simplify_text g text "" = .error (.valueError "Gemini API key is required.") := by
  constructor
  · unfold generate_quiz
    rw [if_pos rfl]
  · unfold simplify_text
    rw [if_pos rfl]
